import Mathlib

/-!
Verification of the adeft/deft repository's trie-based mining and
recognition algorithms.

The development shallowly embeds the two source files:

* `src/deft/mine.py` — `ContinuousMiner` with its `TrieNode` (count,
  `sum_ft`, `sum_ft2`, `LH` likelihood statistics), `_add` and
  `_get_candidates`;
* `src/adeft/recognize.py` — `BaseRecognizer`, `_TrieNode`,
  `AdeftRecognizer` (`_init_trie`, `_search`, `_post_process`),
  `OneShotRecognizer`, and `strip_defining_patterns`.

Python floats are modelled by exact rationals, and the floating point
function `math.log` is abstracted into an arbitrary parameter
`lg : ℕ → ℚ` standing for `fun n => Real.log n`; every statement proved
here holds for all `lg`, hence in particular for the real logarithm of
the length.  Python `dict`s are modelled by association lists with the
usual "update in place, append if new" semantics, which preserves both
key uniqueness and iteration order.  Exceptions are modelled with
`Except`/`Option`.  Helper functions of the repository that are not part
of `src/` (the `adeft.nlp` tokenizer, `adeft.util` candidate helpers) are
modelled from the specification and are marked as such in their doc
comments.
-/

namespace Adeft

/-! ### Association-list children (Python `dict` of child nodes) -/

/-- Lookup in a `dict` of children: the first entry with the given key. -/
def lookupChild {α : Type} (cs : List (String × α)) (tok : String) : Option α :=
  match cs.find? (fun p => p.1 == tok) with
  | none => none
  | some p => some p.2

/-- In-place update of the entry of a `dict` of children at a given key
(every entry with that key is rewritten; keys are unique in all tries
built here, so this is the Python `d[k] = v` on an existing key). -/
def replaceChild {α : Type} (cs : List (String × α)) (tok : String) (c : α) :
    List (String × α) :=
  cs.map (fun p => if p.1 == tok then (p.1, c) else p)

theorem lookupChild_nil {α : Type} (tok : String) :
    lookupChild ([] : List (String × α)) tok = none := rfl

theorem lookupChild_cons {α : Type} (k : String) (v : α) (cs : List (String × α))
    (tok : String) :
    lookupChild ((k, v) :: cs) tok =
      if k = tok then some v else lookupChild cs tok := by
  by_cases h : k = tok
  · simp [lookupChild, List.find?, h]
  · have hb : (k == tok) = false := by simpa using h
    simp [lookupChild, List.find?, hb, h]

theorem lookupChild_append_left {α : Type} {cs : List (String × α)}
    (ds : List (String × α)) {tok : String} {c : α}
    (h : lookupChild cs tok = some c) :
    lookupChild (cs ++ ds) tok = some c := by
  induction cs with
  | nil => simp [lookupChild_nil] at h
  | cons p cs ih =>
      rcases p with ⟨k, v⟩
      by_cases hk : k = tok
      · simpa [lookupChild_cons, hk] using h
      · rw [lookupChild_cons, if_neg hk] at h
        simpa [lookupChild_cons, hk] using ih h

theorem lookupChild_append_right {α : Type} {cs : List (String × α)}
    (ds : List (String × α)) {tok : String}
    (h : lookupChild cs tok = none) :
    lookupChild (cs ++ ds) tok = lookupChild ds tok := by
  induction cs with
  | nil => simp [lookupChild_nil]
  | cons p cs ih =>
      rcases p with ⟨k, v⟩
      by_cases hk : k = tok
      · simp [lookupChild_cons, hk] at h
      · rw [lookupChild_cons, if_neg hk] at h
        simpa [lookupChild_cons, hk] using ih h

theorem lookupChild_replaceChild_self {α : Type} (cs : List (String × α))
    (tok : String) (c : α) (h : (lookupChild cs tok).isSome) :
    lookupChild (replaceChild cs tok c) tok = some c := by
  induction cs with
  | nil => simp [lookupChild_nil] at h
  | cons p cs ih =>
      rcases p with ⟨k, v⟩
      by_cases hk : k = tok
      · simp [replaceChild, lookupChild_cons, hk]
      · simp only [lookupChild_cons, if_neg hk] at h
        simpa [replaceChild, lookupChild_cons, hk] using ih h

theorem replaceChild_cons {α : Type} (k : String) (v : α)
    (cs : List (String × α)) (tok : String) (c : α) :
    replaceChild ((k, v) :: cs) tok c =
      (if k = tok then (k, c) else (k, v)) :: replaceChild cs tok c := by
  by_cases h : k = tok <;> simp [replaceChild, h]

theorem lookupChild_replaceChild_ne {α : Type} (cs : List (String × α))
    (tok x : String) (c : α) (h : x ≠ tok) :
    lookupChild (replaceChild cs tok c) x = lookupChild cs x := by
  induction cs with
  | nil => simp [replaceChild, lookupChild_nil]
  | cons p cs ih =>
      rcases p with ⟨k, v⟩
      rw [replaceChild_cons]
      have htx : ¬ tok = x := fun e => h e.symm
      by_cases hk : k = tok
      · have hkx : ¬ k = x := fun hkx => h (hkx ▸ hk)
        simp [hk, lookupChild_cons, hkx, htx, ih]
      · by_cases hx : k = x
        · simp [hk, lookupChild_cons, hx, h]
        · simp [hk, lookupChild_cons, hx, ih]

/-! ### Generic trie

Both `deft.mine.ContinuousMiner.TrieNode` and `adeft.recognize._TrieNode`
are nodes carrying a payload together with a `dict` of children keyed by
tokens; the payload type is the only difference, so the tree shape is
shared. -/

/-- A trie node: a payload and a `dict` of child nodes keyed by token. -/
inductive GTrie (α : Type) : Type where
  | node : α → List (String × GTrie α) → GTrie α

/-- The payload stored at the node. -/
def GTrie.data {α : Type} : GTrie α → α
  | .node d _ => d

/-- The children `dict` of the node. -/
def GTrie.children {α : Type} : GTrie α → List (String × GTrie α)
  | .node _ cs => cs

/-- Walk a trie downward along a path of tokens, returning the node
reached, if every step finds a child. -/
def GTrie.nodeAt {α : Type} : GTrie α → List String → Option (GTrie α)
  | t, [] => some t
  | .node _ cs, tok :: rest =>
      match lookupChild cs tok with
      | none => none
      | some c => c.nodeAt rest

theorem GTrie.nodeAt_nil {α : Type} (t : GTrie α) : t.nodeAt [] = some t := by
  cases t
  rfl

theorem GTrie.nodeAt_cons_none {α : Type} {d : α} {cs : List (String × GTrie α)}
    {tok : String} (rest : List String) (h : lookupChild cs tok = none) :
    (GTrie.node d cs).nodeAt (tok :: rest) = none := by
  show (match lookupChild cs tok with
        | none => none
        | some c => GTrie.nodeAt c rest) = none
  rw [h]

theorem GTrie.nodeAt_cons_some {α : Type} {d : α} {cs : List (String × GTrie α)}
    {tok : String} {c : GTrie α} (rest : List String)
    (h : lookupChild cs tok = some c) :
    (GTrie.node d cs).nodeAt (tok :: rest) = c.nodeAt rest := by
  show (match lookupChild cs tok with
        | none => none
        | some c => GTrie.nodeAt c rest) = c.nodeAt rest
  rw [h]

end Adeft

namespace Adeft

/-! ### `deft.mine.ContinuousMiner.TrieNode` -/

/-- The mutable statistics of one `ContinuousMiner.TrieNode`
(`src/deft/mine.py`, lines 106–133).  `longform` is the reversed token
sequence of the candidate, `lp` is the cached `__length_penalty`
(`math.log(len(longform))`, abstracted through the parameter `lg`), and
`LH` the current likelihood.  The root of the trie is the node with
`longform = []`; on the Python side its `count`/`sum_ft`/`sum_ft2`/`LH`
slots are simply never initialized nor read, and are set to `0` here. -/
structure NodeData where
  longform : List String
  count : ℕ
  sum_ft : ℤ
  sum_ft2 : ℤ
  LH : ℚ
  lp : ℚ
  deriving DecidableEq, Repr

/-- `TrieNode.__init__` for a non-root node (`longform` truthy):
`count = 1`, `sum_ft = sum_ft2 = 0`,
`LH = __length_penalty = math.log(len(longform))`. -/
def TrieNode.init (lg : ℕ → ℚ) (longform : List String) : NodeData :=
  ⟨longform, 1, 0, 0, lg longform.length, lg longform.length⟩

/-- `TrieNode.increment_count`: `count += 1; LH += __length_penalty`. -/
def TrieNode.increment_count (d : NodeData) : NodeData :=
  ⟨d.longform, d.count + 1, d.sum_ft, d.sum_ft2, d.LH + d.lp, d.lp⟩

/-- `TrieNode.update_likelihood(count)`:
`LH += sum_ft/sum_ft2 if sum_ft2 else 0`, then `sum_ft += 1`,
`sum_ft2 += 2*count - 1`, then `LH -= sum_ft/sum_ft2` with the updated
sums. -/
def TrieNode.update_likelihood (d : NodeData) (count : ℕ) : NodeData :=
  let lh1 : ℚ := d.LH + (if d.sum_ft2 ≠ 0 then (d.sum_ft : ℚ) / (d.sum_ft2 : ℚ) else 0)
  let ft : ℤ := d.sum_ft + 1
  let ft2 : ℤ := d.sum_ft2 + (2 * (count : ℤ) - 1)
  ⟨d.longform, d.count, ft, ft2, lh1 - (ft : ℚ) / (ft2 : ℚ), d.lp⟩

/-- The state of a `ContinuousMiner`: the internal trie and the
`_longforms` dict mapping forward-order longforms to their current
likelihoods. -/
structure Miner where
  trie : GTrie NodeData
  longforms : List (List String × ℚ)

/-- The payload of the root `TrieNode()`: its `longform` is the empty
tuple and its statistics slots are never initialized nor read by the
Python code; they are fixed to `0` here. -/
def rootD : NodeData := ⟨[], 0, 0, 0, 0, 0⟩

/-- A freshly constructed `ContinuousMiner`: an empty root node and an
empty `_longforms` dict. -/
def freshMiner : Miner :=
  ⟨.node rootD [], []⟩

/-- `self._longforms[key] = v` on a Python dict: overwrite in place when
the key exists, append otherwise. -/
def upsert (tbl : List (List String × ℚ)) (key : List String) (v : ℚ) :
    List (List String × ℚ) :=
  match tbl with
  | [] => [(key, v)]
  | (k, w) :: rest =>
      if k = key then (k, v) :: rest else (k, w) :: upsert rest key v

/-- The loop of `ContinuousMiner._add` (`src/deft/mine.py`, lines
221–251), walking the already stemmed and reversed token list down from
`cur` and threading the `_longforms` dict. For each token: if no child
exists, a new `TrieNode` is created (with the parent's `longform`
extended by the token) and recorded in `_longforms`; otherwise the
child's `count`/`LH` are bumped, `_longforms` is refreshed for the
child, and — when the current node is not the root — the current node's
dispersion statistics are updated via `update_likelihood` with the
child's new count and `_longforms` refreshed for it as well. -/
def addWalk (lg : ℕ → ℚ) :
    GTrie NodeData → List (List String × ℚ) → List String →
      GTrie NodeData × List (List String × ℚ)
  | t, tbl, [] => (t, tbl)
  | .node d cs, tbl, tok :: rest =>
      match lookupChild cs tok with
      | none =>
          let nd := TrieNode.init lg (d.longform ++ [tok])
          let tbl1 := upsert tbl nd.longform.reverse nd.LH
          let r := addWalk lg (.node nd []) tbl1 rest
          (.node d (cs ++ [(tok, r.1)]), r.2)
      | some c =>
          let cd1 := TrieNode.increment_count c.data
          let tbl1 := upsert tbl cd1.longform.reverse cd1.LH
          if d.longform = [] then
            let r := addWalk lg (.node cd1 c.children) tbl1 rest
            (.node d (replaceChild cs tok r.1), r.2)
          else
            let d2 := TrieNode.update_likelihood d cd1.count
            let tbl2 := upsert tbl1 d2.longform.reverse d2.LH
            let r := addWalk lg (.node cd1 c.children) tbl2 rest
            (.node d2 (replaceChild cs tok r.1), r.2)

/-- `ContinuousMiner._add(tokens)`: stem every token (`stem` abstracts
`self._snow.stem`), reverse the list, then walk it into the trie. -/
def ContinuousMiner.add (lg : ℕ → ℚ) (stem : String → String) (m : Miner)
    (tokens : List String) : Miner :=
  let toks := (tokens.map stem).reverse
  let r := addWalk lg m.trie m.longforms toks
  ⟨r.1, r.2⟩

/-! ### The likelihood invariant (claim C1) -/

/-- The documented relation between the statistics of a non-root
`TrieNode`: the cached length penalty is `lg (len longform)`, the count
is at least one, `sum_ft2` is non-negative, and
`LH = count * lg (len longform) - (sum_ft/sum_ft2 if sum_ft2 else 0)`. -/
def NodeInvD (lg : ℕ → ℚ) (d : NodeData) : Prop :=
  d.longform ≠ [] ∧ 1 ≤ d.count ∧ 0 ≤ d.sum_ft2 ∧
    d.lp = lg d.longform.length ∧
    d.LH = (d.count : ℚ) * lg d.longform.length -
      (if d.sum_ft2 ≠ 0 then (d.sum_ft : ℚ) / (d.sum_ft2 : ℚ) else 0)

theorem NodeInvD_init (lg : ℕ → ℚ) (lf : List String) (h : lf ≠ []) :
    NodeInvD lg (TrieNode.init lg lf) := by
  refine ⟨h, le_refl 1, le_refl 0, rfl, ?_⟩
  simp [TrieNode.init]

theorem NodeInvD_increment (lg : ℕ → ℚ) (d : NodeData) (h : NodeInvD lg d) :
    NodeInvD lg (TrieNode.increment_count d) := by
  obtain ⟨h1, h2, h3, h4, h5⟩ := h
  refine ⟨h1, Nat.le_succ_of_le h2, h3, h4, ?_⟩
  simp only [TrieNode.increment_count, h4, h5]
  push_cast
  ring

theorem NodeInvD_update (lg : ℕ → ℚ) (d : NodeData) (c : ℕ) (hc : 1 ≤ c)
    (h : NodeInvD lg d) : NodeInvD lg (TrieNode.update_likelihood d c) := by
  obtain ⟨h1, h2, h3, h4, h5⟩ := h
  have hft2 : 0 < d.sum_ft2 + (2 * (c : ℤ) - 1) := by
    have : (1 : ℤ) ≤ (c : ℤ) := by exact_mod_cast hc
    omega
  refine ⟨h1, h2, le_of_lt hft2, h4, ?_⟩
  simp only [TrieNode.update_likelihood, h5, ne_eq, hft2.ne', not_false_iff,
    if_true]
  ring

/-- The invariant over a whole mining trie: every node reachable by a
non-empty path satisfies `NodeInvD`. -/
def MInv (lg : ℕ → ℚ) (t : GTrie NodeData) : Prop :=
  ∀ p n, t.nodeAt p = some n → p ≠ [] → NodeInvD lg n.data

theorem MInv_leaf (lg : ℕ → ℚ) (d : NodeData) : MInv lg (.node d []) := by
  intro p n hp hne
  cases p with
  | nil => exact absurd rfl hne
  | cons x q =>
      rw [GTrie.nodeAt_cons_none q (lookupChild_nil x)] at hp
      exact absurd hp (by simp)

/-- The walk of `_add` preserves the likelihood invariant, leaves the
current node's `longform` unchanged, and keeps the current node's own
invariant when it is not the root. -/
theorem addWalk_inv (lg : ℕ → ℚ) (toks : List String) :
    ∀ (t : GTrie NodeData) (tbl : List (List String × ℚ)),
      MInv lg t → (t.data.longform ≠ [] → NodeInvD lg t.data) →
      MInv lg (addWalk lg t tbl toks).1 ∧
      (addWalk lg t tbl toks).1.data.longform = t.data.longform ∧
      ((addWalk lg t tbl toks).1.data.longform ≠ [] →
        NodeInvD lg (addWalk lg t tbl toks).1.data) := by
  induction toks with
  | nil =>
      intro t tbl h1 h2
      cases t
      exact ⟨h1, rfl, h2⟩
  | cons tok rest ih =>
      intro t tbl h1 h2
      cases t with
      | node d cs =>
      cases hc : lookupChild cs tok with
      | none =>
          have hlf : (d.longform ++ [tok]) ≠ [] := by simp
          have hnd : NodeInvD lg (TrieNode.init lg (d.longform ++ [tok])) :=
            NodeInvD_init lg _ hlf
          obtain ⟨hs1, hs2, hs3⟩ :=
            ih (.node (TrieNode.init lg (d.longform ++ [tok])) [])
              (upsert tbl (TrieNode.init lg (d.longform ++ [tok])).longform.reverse
                (TrieNode.init lg (d.longform ++ [tok])).LH)
              (MInv_leaf lg _) (fun _ => hnd)
          simp only [addWalk, hc]
          refine ⟨?_, rfl, h2⟩
          intro p n hp hne
          cases p with
          | nil => exact absurd rfl hne
          | cons x q =>
              cases hcx : lookupChild cs x with
              | some c' =>
                  rw [GTrie.nodeAt_cons_some q
                    (lookupChild_append_left _ hcx)] at hp
                  refine h1 (x :: q) n ?_ (by simp)
                  rw [GTrie.nodeAt_cons_some q hcx]
                  exact hp
              | none =>
                  have hap : lookupChild (cs ++ [(tok,
                      (addWalk lg (.node (TrieNode.init lg (d.longform ++ [tok])) [])
                        (upsert tbl
                          (TrieNode.init lg (d.longform ++ [tok])).longform.reverse
                          (TrieNode.init lg (d.longform ++ [tok])).LH) rest).1)]) x =
                      if tok = x then some
                        (addWalk lg (.node (TrieNode.init lg (d.longform ++ [tok])) [])
                          (upsert tbl
                            (TrieNode.init lg (d.longform ++ [tok])).longform.reverse
                            (TrieNode.init lg (d.longform ++ [tok])).LH) rest).1
                      else none := by
                    rw [lookupChild_append_right _ hcx, lookupChild_cons]
                    by_cases hx : tok = x
                    · rw [if_pos hx, if_pos hx]
                    · rw [if_neg hx, if_neg hx, lookupChild_nil]
                  by_cases hx : tok = x
                  · rw [if_pos hx] at hap
                    rw [GTrie.nodeAt_cons_some q hap] at hp
                    cases q with
                    | nil =>
                        rw [GTrie.nodeAt_nil] at hp
                        cases hp
                        rw [hs2] at hs3
                        exact hs3 hlf
                    | cons y q' => exact hs1 (y :: q') n hp (by simp)
                  · rw [if_neg hx] at hap
                    rw [GTrie.nodeAt_cons_none q hap] at hp
                    exact absurd hp (by simp)
      | some c =>
          cases c with
          | node cd ccs =>
          have hcd : NodeInvD lg cd := by
            refine h1 [tok] (.node cd ccs) ?_ (by simp)
            rw [GTrie.nodeAt_cons_some [] hc, GTrie.nodeAt_nil]
          have hcd1 : NodeInvD lg (TrieNode.increment_count cd) :=
            NodeInvD_increment lg cd hcd
          have hsubinv : MInv lg (.node (TrieNode.increment_count cd) ccs) := by
            intro p n hp hne
            cases p with
            | nil => exact absurd rfl hne
            | cons y q =>
                refine h1 (tok :: y :: q) n ?_ (by simp)
                rw [GTrie.nodeAt_cons_some (y :: q) hc]
                cases hcy : lookupChild ccs y with
                | none =>
                    rw [GTrie.nodeAt_cons_none q hcy] at hp
                    exact absurd hp (by simp)
                | some cy =>
                    rw [GTrie.nodeAt_cons_some q hcy] at hp
                    rw [GTrie.nodeAt_cons_some q hcy]
                    exact hp
          have hinc_lf : (TrieNode.increment_count cd).longform = cd.longform := rfl
          by_cases hroot : d.longform = []
          · obtain ⟨hs1, hs2, hs3⟩ :=
              ih (.node (TrieNode.increment_count cd) ccs)
                (upsert tbl (TrieNode.increment_count cd).longform.reverse
                  (TrieNode.increment_count cd).LH)
                hsubinv (fun _ => hcd1)
            simp only [addWalk, hc, GTrie.data, if_pos hroot]
            refine ⟨?_, by trivial, by exact h2⟩
            intro p n hp hne
            cases p with
            | nil => exact absurd rfl hne
            | cons x q =>
                by_cases hx : x = tok
                · subst hx
                  rw [GTrie.nodeAt_cons_some q
                    (lookupChild_replaceChild_self cs x _ (by simp [hc]))] at hp
                  cases q with
                  | nil =>
                      rw [GTrie.nodeAt_nil] at hp
                      cases hp
                      rw [hs2] at hs3
                      exact hs3 (hinc_lf ▸ hcd.1)
                  | cons y q' => exact hs1 (y :: q') n hp (by simp)
                · cases hcx : lookupChild cs x with
                  | none =>
                      rw [GTrie.nodeAt_cons_none q
                        ((lookupChild_replaceChild_ne cs tok x _ hx).trans hcx)]
                        at hp
                      exact absurd hp (by simp)
                  | some c' =>
                      rw [GTrie.nodeAt_cons_some q
                        ((lookupChild_replaceChild_ne cs tok x _ hx).trans hcx)]
                        at hp
                      refine h1 (x :: q) n ?_ (by simp)
                      rw [GTrie.nodeAt_cons_some q hcx]
                      exact hp
          · have hd : NodeInvD lg d := h2 hroot
            have hd2 : NodeInvD lg (TrieNode.update_likelihood d
                (TrieNode.increment_count cd).count) :=
              NodeInvD_update lg d _ (Nat.le_add_left 1 cd.count) hd
            have hupd_lf : (TrieNode.update_likelihood d
                (TrieNode.increment_count cd).count).longform = d.longform := rfl
            obtain ⟨hs1, hs2, hs3⟩ :=
              ih (.node (TrieNode.increment_count cd) ccs)
                (upsert (upsert tbl (TrieNode.increment_count cd).longform.reverse
                    (TrieNode.increment_count cd).LH)
                  (TrieNode.update_likelihood d
                    (TrieNode.increment_count cd).count).longform.reverse
                  (TrieNode.update_likelihood d
                    (TrieNode.increment_count cd).count).LH)
                hsubinv (fun _ => hcd1)
            simp only [addWalk, hc, GTrie.data, if_neg hroot]
            refine ⟨?_, by exact hupd_lf, by exact fun _ => hd2⟩
            intro p n hp hne
            cases p with
            | nil => exact absurd rfl hne
            | cons x q =>
                by_cases hx : x = tok
                · subst hx
                  rw [GTrie.nodeAt_cons_some q
                    (lookupChild_replaceChild_self cs x _ (by simp [hc]))] at hp
                  cases q with
                  | nil =>
                      rw [GTrie.nodeAt_nil] at hp
                      cases hp
                      rw [hs2] at hs3
                      exact hs3 (hinc_lf ▸ hcd.1)
                  | cons y q' => exact hs1 (y :: q') n hp (by simp)
                · cases hcx : lookupChild cs x with
                  | none =>
                      rw [GTrie.nodeAt_cons_none q
                        ((lookupChild_replaceChild_ne cs tok x _ hx).trans hcx)]
                        at hp
                      exact absurd hp (by simp)
                  | some c' =>
                      rw [GTrie.nodeAt_cons_some q
                        ((lookupChild_replaceChild_ne cs tok x _ hx).trans hcx)]
                        at hp
                      refine h1 (x :: q) n ?_ (by simp)
                      rw [GTrie.nodeAt_cons_some q hcx]
                      exact hp

/-- The invariant holds after any sequence of `_add` calls on a fresh
miner, together with the fact that the root keeps its empty longform. -/
theorem foldAdd_inv (lg : ℕ → ℚ) (stem : String → String)
    (css : List (List String)) :
    MInv lg ((css.foldl (ContinuousMiner.add lg stem) freshMiner).trie) ∧
    ((css.foldl (ContinuousMiner.add lg stem) freshMiner).trie).data.longform
      = [] := by
  suffices h : ∀ m : Miner, MInv lg m.trie → m.trie.data.longform = [] →
      MInv lg ((css.foldl (ContinuousMiner.add lg stem) m).trie) ∧
      ((css.foldl (ContinuousMiner.add lg stem) m).trie).data.longform = [] by
    exact h freshMiner (MInv_leaf lg _) rfl
  induction css with
  | nil => intro m h1 h2; exact ⟨h1, h2⟩
  | cons cand rest ih =>
      intro m h1 h2
      obtain ⟨ha, hb, _⟩ := addWalk_inv lg ((cand.map stem).reverse) m.trie
        m.longforms h1 (fun hne => absurd h2 hne)
      exact ih ⟨_, _⟩ ha (hb.trans h2)

/-- **C1.** After any sequence of `_add` calls on a fresh miner, every
non-root node of the mining trie satisfies
`LH = count * log(len(longform)) - (sum_ft/sum_ft2 if sum_ft2 != 0 else 0)`
(with `lg` abstracting `math.log` of the length); the relation holds at
node creation and is preserved by `increment_count` and
`update_likelihood` (lemmas `NodeInvD_init`, `NodeInvD_increment`,
`NodeInvD_update`). -/
theorem adeft_C1_likelihood_invariant (lg : ℕ → ℚ) (stem : String → String)
    (css : List (List String)) (p : List String) (n : GTrie NodeData)
    (hp : p ≠ [])
    (hn : ((css.foldl (ContinuousMiner.add lg stem) freshMiner).trie).nodeAt p
      = some n) :
    n.data.LH = (n.data.count : ℚ) * lg n.data.longform.length -
      (if n.data.sum_ft2 ≠ 0 then (n.data.sum_ft : ℚ) / (n.data.sum_ft2 : ℚ)
       else 0) :=
  ((foldAdd_inv lg stem css).1 p n hn hp).2.2.2.2

def c1node : GTrie NodeData := .node ⟨["a"], 1, 0, 0, 0, 0⟩ []

/-- Witness for C1: after adding the single candidate `["a"]` the node at
path `["a"]` exists and satisfies the likelihood relation. -/
theorem adeft_C1_witness :
    ((([["a"]] : List (List String)).foldl
        (ContinuousMiner.add (fun _ => (0 : ℚ)) id) freshMiner).trie).nodeAt
      ["a"] = some c1node ∧
    c1node.data.LH = (c1node.data.count : ℚ) *
        (fun _ => (0 : ℚ)) c1node.data.longform.length -
      (if c1node.data.sum_ft2 ≠ 0 then
        (c1node.data.sum_ft : ℚ) / (c1node.data.sum_ft2 : ℚ) else 0) :=
  ⟨rfl, adeft_C1_likelihood_invariant (fun _ => (0 : ℚ)) id [["a"]] ["a"]
    c1node (by simp) rfl⟩

/-! ### Safety of `update_likelihood` (claim C9) -/

/-- **C9.** `update_likelihood` never divides by zero: for a node with
`count ≥ 1` and non-negative sums, the `sum_ft2 == 0` case of the first
division is guarded and contributes `0`, the update adds `2*count - 1`
to `sum_ft2`, the updated `sum_ft2` is strictly positive so the final
division `sum_ft/sum_ft2` is well defined. -/
theorem adeft_C9_update_likelihood_safe (d : NodeData) (c : ℕ) (hc : 1 ≤ c)
    (hft2 : 0 ≤ d.sum_ft2) :
    (TrieNode.update_likelihood d c).sum_ft2 = d.sum_ft2 + (2 * (c : ℤ) - 1) ∧
    0 < (TrieNode.update_likelihood d c).sum_ft2 ∧
    (d.sum_ft2 = 0 →
      (TrieNode.update_likelihood d c).LH =
        d.LH - (((d.sum_ft + 1 : ℤ) : ℚ) /
          ((d.sum_ft2 + (2 * (c : ℤ) - 1) : ℤ) : ℚ))) := by
  have hc' : (1 : ℤ) ≤ (c : ℤ) := by exact_mod_cast hc
  refine ⟨rfl, by simp only [TrieNode.update_likelihood]; omega, ?_⟩
  intro h0
  simp [TrieNode.update_likelihood, h0]

def c9d : NodeData := ⟨["x"], 1, 0, 0, 0, 0⟩

/-- Witness for C9 at a concrete node with `count = 1`,
`sum_ft = sum_ft2 = 0`. -/
theorem adeft_C9_witness :
    (1 ≤ 1 ∧ (0 : ℤ) ≤ c9d.sum_ft2) ∧
    ((TrieNode.update_likelihood c9d 1).sum_ft2 =
        c9d.sum_ft2 + (2 * ((1 : ℕ) : ℤ) - 1) ∧
      0 < (TrieNode.update_likelihood c9d 1).sum_ft2 ∧
      (c9d.sum_ft2 = 0 →
        (TrieNode.update_likelihood c9d 1).LH =
          c9d.LH - (((c9d.sum_ft + 1 : ℤ) : ℚ) /
            ((c9d.sum_ft2 + (2 * ((1 : ℕ) : ℤ) - 1) : ℤ) : ℚ)))) :=
  ⟨⟨le_refl 1, le_refl 0⟩,
    adeft_C9_update_likelihood_safe c9d 1 (le_refl 1) (le_refl 0)⟩

/-! ### Repeated insertion of a single candidate (claim C8)

After inserting the same (stemmed, reversed) token sequence `r` into a
fresh miner `k` times, the trie is the single path along `r`: every node
on it has `count = k`; the deepest node keeps `sum_ft = sum_ft2 = 0` and
`LH = k * lg (len r)`; every ancestor holds the dispersion statistics
`sum_ft = k - 1`, `sum_ft2 = k² - 1` (one `update_likelihood` per
insertion event after the first) and
`LH = k * lg (len longform) - (k-1)/(k²-1)` for `k ≥ 2`. -/

/-- Data of the deepest node of the path after `k` insertions. -/
def leafD (lg : ℕ → ℚ) (k : ℕ) (lf : List String) : NodeData :=
  ⟨lf, k, 0, 0, (k : ℚ) * lg lf.length, lg lf.length⟩

/-- Data of an ancestor (non-deepest) node of the path after `k`
insertions. -/
def innerD (lg : ℕ → ℚ) (k : ℕ) (lf : List String) : NodeData :=
  ⟨lf, k, (k : ℤ) - 1, (k : ℤ) ^ 2 - 1,
    (k : ℚ) * lg lf.length -
      (if ((k : ℤ) ^ 2 - 1) ≠ 0 then
        (((k : ℤ) - 1 : ℤ) : ℚ) / (((k : ℤ) ^ 2 - 1 : ℤ) : ℚ) else 0),
    lg lf.length⟩

/-- Data of the node with longform `lf` when `rem` tokens of the path
are still below it. -/
def nodeD (lg : ℕ → ℚ) (k : ℕ) (lf : List String) (rem : List String) :
    NodeData :=
  if rem = [] then leafD lg k lf else innerD lg k lf

/-- The single-path trie below a node with longform `pref`, carrying the
statistics after `k` insertions of the full path. -/
def chain (lg : ℕ → ℚ) (k : ℕ) : List String → List String →
    List (String × GTrie NodeData)
  | _, [] => []
  | pref, t :: rest =>
      [(t, .node (nodeD lg k (pref ++ [t]) rest) (chain lg k (pref ++ [t]) rest))]

theorem innerD_one (lg : ℕ → ℚ) (lf : List String) :
    innerD lg 1 lf = leafD lg 1 lf := by
  simp [innerD, leafD]

theorem init_eq_leafD (lg : ℕ → ℚ) (lf : List String) :
    TrieNode.init lg lf = leafD lg 1 lf := by
  simp [TrieNode.init, leafD]

theorem increment_leafD (lg : ℕ → ℚ) (k : ℕ) (lf : List String) :
    TrieNode.increment_count (leafD lg k lf) = leafD lg (k + 1) lf := by
  simp only [TrieNode.increment_count, leafD, NodeData.mk.injEq, and_true,
    true_and]
  push_cast
  ring

theorem update_increment_innerD (lg : ℕ → ℚ) (k : ℕ) (lf : List String)
    (hk : 1 ≤ k) :
    TrieNode.update_likelihood (TrieNode.increment_count (innerD lg k lf))
      (k + 1) = innerD lg (k + 1) lf := by
  have hk' : (1 : ℤ) ≤ (k : ℤ) := by exact_mod_cast hk
  have hne : ((((k + 1 : ℕ)) : ℤ) ^ 2 - 1) ≠ 0 := by
    push_cast
    nlinarith
  simp only [TrieNode.update_likelihood, TrieNode.increment_count, innerD,
    NodeData.mk.injEq, and_true, true_and]
  refine ⟨by push_cast; ring, by push_cast; ring, ?_⟩
  rw [if_pos hne]
  have hnum : ((k : ℤ) - 1 + 1) = (((k + 1 : ℕ)) : ℤ) - 1 := by push_cast; ring
  have hden : ((k : ℤ) ^ 2 - 1 + (2 * (((k + 1 : ℕ)) : ℤ) - 1)) =
      (((k + 1 : ℕ)) : ℤ) ^ 2 - 1 := by push_cast; ring
  rw [hnum, hden]
  push_cast
  ring

theorem nodeD_count (lg : ℕ → ℚ) (k : ℕ) (lf rem : List String) :
    (nodeD lg k lf rem).count = k := by
  by_cases h : rem = [] <;> simp [nodeD, h, leafD, innerD]

/-- First insertion below a freshly created node: the walk builds the
fresh single path with `k = 1` statistics. -/
theorem addWalk_fresh (lg : ℕ → ℚ) :
    ∀ (rem pref : List String) (tbl : List (List String × ℚ)),
      (addWalk lg (.node (leafD lg 1 pref) []) tbl rem).1 =
        .node (nodeD lg 1 pref rem) (chain lg 1 pref rem) := by
  intro rem
  induction rem with
  | nil => intro pref tbl; simp [addWalk, nodeD, chain]
  | cons t rest ih =>
      intro pref tbl
      have hlf : (leafD lg 1 pref).longform = pref := rfl
      have hchain : chain lg 1 pref (t :: rest) =
          [(t, .node (nodeD lg 1 (pref ++ [t]) rest)
            (chain lg 1 (pref ++ [t]) rest))] := rfl
      have hnd : nodeD lg 1 pref (t :: rest) = leafD lg 1 pref := by
        simp only [nodeD]
        rw [if_neg (by simp : ¬ (t :: rest) = ([] : List String))]
        exact innerD_one lg pref
      simp only [addWalk, lookupChild_nil, List.nil_append, hlf]
      rw [init_eq_leafD, ih, hnd, hchain]

/-- Re-insertion step below the root: walking the path again bumps every
count, refreshes every ancestor's dispersion statistics once, and turns
the `k`-statistics path into the `k+1`-statistics path. -/
theorem addWalk_bump (lg : ℕ → ℚ) (k : ℕ) (hk : 1 ≤ k) :
    ∀ (rem pref : List String) (tbl : List (List String × ℚ)), pref ≠ [] →
      (addWalk lg
          (.node (TrieNode.increment_count (nodeD lg k pref rem))
            (chain lg k pref rem)) tbl rem).1 =
        .node (nodeD lg (k + 1) pref rem) (chain lg (k + 1) pref rem) := by
  intro rem
  induction rem with
  | nil =>
      intro pref tbl hpref
      simp [addWalk, nodeD, chain, increment_leafD]
  | cons t rest ih =>
      intro pref tbl hpref
      have hkey : lookupChild (chain lg k pref (t :: rest)) t =
          some (.node (nodeD lg k (pref ++ [t]) rest)
            (chain lg k (pref ++ [t]) rest)) := by
        simp [chain, lookupChild_cons]
      simp only [addWalk, hkey]
      rw [if_neg ?hroot]
      case hroot =>
        show ¬ (TrieNode.increment_count (nodeD lg k pref (t :: rest))).longform = []
        have : (TrieNode.increment_count (nodeD lg k pref (t :: rest))).longform
            = pref := by
          simp [TrieNode.increment_count, nodeD, innerD,
            if_neg (by simp : ¬ (t :: rest) = [])]
        rw [this]; exact hpref
      have hdata : (GTrie.node (nodeD lg k (pref ++ [t]) rest)
          (chain lg k (pref ++ [t]) rest)).data = nodeD lg k (pref ++ [t]) rest :=
        rfl
      have hchild : (GTrie.node (nodeD lg k (pref ++ [t]) rest)
          (chain lg k (pref ++ [t]) rest)).children =
            chain lg k (pref ++ [t]) rest := rfl
      rw [hdata, hchild, ih (pref ++ [t]) _ (by simp)]
      have hcount : (TrieNode.increment_count (nodeD lg k (pref ++ [t]) rest)).count
          = k + 1 := by
        simp [TrieNode.increment_count, nodeD_count]
      rw [hcount]
      have hinner : nodeD lg k pref (t :: rest) = innerD lg k pref := by
        simp [nodeD]
      rw [hinner, update_increment_innerD lg k pref hk]
      have hrepl : replaceChild (chain lg k pref (t :: rest)) t
          (.node (nodeD lg (k + 1) (pref ++ [t]) rest)
            (chain lg (k + 1) (pref ++ [t]) rest)) =
          chain lg (k + 1) pref (t :: rest) := by
        simp [chain, replaceChild]
      rw [hrepl]
      simp [nodeD, chain]

/-- The first `_add` of a non-empty reversed token list builds the fresh
single path with `k = 1` statistics below the root. -/
theorem addWalk_root_first (lg : ℕ → ℚ) (r : List String)
    (tbl : List (List String × ℚ)) (hr : r ≠ []) :
    (addWalk lg (.node rootD []) tbl r).1 = .node rootD (chain lg 1 [] r) := by
  cases r with
  | nil => exact absurd rfl hr
  | cons t rest =>
      have hlf : rootD.longform = ([] : List String) := rfl
      simp only [addWalk, lookupChild_nil, List.nil_append, hlf]
      rw [init_eq_leafD, addWalk_fresh]
      simp [chain]

/-- Re-inserting the same reversed token list at the root turns the
`k`-statistics path into the `k+1`-statistics path. -/
theorem addWalk_root_again (lg : ℕ → ℚ) (k : ℕ) (hk : 1 ≤ k) (r : List String)
    (tbl : List (List String × ℚ)) (hr : r ≠ []) :
    (addWalk lg (.node rootD (chain lg k [] r)) tbl r).1 =
      .node rootD (chain lg (k + 1) [] r) := by
  cases r with
  | nil => exact absurd rfl hr
  | cons t rest =>
      have hkey : lookupChild (chain lg k [] (t :: rest)) t =
          some (.node (nodeD lg k ([] ++ [t]) rest)
            (chain lg k ([] ++ [t]) rest)) := by
        simp [chain, lookupChild_cons]
      simp only [addWalk, hkey]
      rw [if_pos (show rootD.longform = [] from rfl)]
      have hdata : (GTrie.node (nodeD lg k ([] ++ [t]) rest)
          (chain lg k ([] ++ [t]) rest)).data = nodeD lg k ([] ++ [t]) rest := rfl
      have hchild : (GTrie.node (nodeD lg k ([] ++ [t]) rest)
          (chain lg k ([] ++ [t]) rest)).children =
            chain lg k ([] ++ [t]) rest := rfl
      rw [hdata, hchild, addWalk_bump lg k hk rest ([] ++ [t]) _ (by simp)]
      have hrepl : replaceChild (chain lg k [] (t :: rest)) t
          (.node (nodeD lg (k + 1) ([] ++ [t]) rest)
            (chain lg (k + 1) ([] ++ [t]) rest)) =
          chain lg (k + 1) [] (t :: rest) := by
        simp [chain, replaceChild]
      rw [hrepl]

/-- After `k ≥ 1` identical `_add` calls on a fresh miner the trie is
exactly the `k`-statistics single path along the stemmed reversed
candidate. -/
theorem iterAdd_trie (lg : ℕ → ℚ) (stem : String → String) (t : List String)
    (ht : t ≠ []) :
    ∀ k : ℕ, 1 ≤ k →
      ((fun m => ContinuousMiner.add lg stem m t)^[k] freshMiner).trie =
        .node rootD (chain lg k [] ((t.map stem).reverse)) := by
  have hr : (t.map stem).reverse ≠ [] := by
    simp [ht]
  intro k
  induction k with
  | zero => intro h; exact absurd h (by norm_num)
  | succ k ih =>
      intro _
      rw [Function.iterate_succ_apply']
      by_cases hk : 1 ≤ k
      · show (addWalk lg
            ((fun m => ContinuousMiner.add lg stem m t)^[k] freshMiner).trie
            ((fun m => ContinuousMiner.add lg stem m t)^[k] freshMiner).longforms
            ((t.map stem).reverse)).1 = _
        rw [ih hk]
        exact addWalk_root_again lg k hk _ _ hr
      · have hk0 : k = 0 := by omega
        subst hk0
        show (addWalk lg freshMiner.trie freshMiner.longforms
          ((t.map stem).reverse)).1 = _
        exact addWalk_root_first lg _ _ hr

/-- Node existence in a `chain` path depends only on the path, not on
the insertion count. -/
theorem chain_nodeAt_isSome (lg : ℕ → ℚ) (k j : ℕ) :
    ∀ (p rem pref : List String) (D E : NodeData),
      ((GTrie.node D (chain lg k pref rem)).nodeAt p).isSome ↔
      ((GTrie.node E (chain lg j pref rem)).nodeAt p).isSome := by
  intro p
  induction p with
  | nil =>
      intro rem pref D E
      rw [GTrie.nodeAt_nil, GTrie.nodeAt_nil]
      simp
  | cons x q ih =>
      intro rem pref D E
      cases rem with
      | nil =>
          rw [GTrie.nodeAt_cons_none q (by simp [chain, lookupChild_nil]),
            GTrie.nodeAt_cons_none q (by simp [chain, lookupChild_nil])]
      | cons t rest =>
          by_cases hx : t = x
          · subst hx
            rw [GTrie.nodeAt_cons_some q
                (by simp [chain, lookupChild_cons] :
                  lookupChild (chain lg k pref (t :: rest)) t =
                  some (.node (nodeD lg k (pref ++ [t]) rest)
                    (chain lg k (pref ++ [t]) rest))),
              GTrie.nodeAt_cons_some q
                (by simp [chain, lookupChild_cons] :
                  lookupChild (chain lg j pref (t :: rest)) t =
                  some (.node (nodeD lg j (pref ++ [t]) rest)
                    (chain lg j (pref ++ [t]) rest)))]
            exact ih rest (pref ++ [t]) _ _
          · rw [GTrie.nodeAt_cons_none q
                (by simp [chain, lookupChild_cons, lookupChild_nil, hx]),
              GTrie.nodeAt_cons_none q
                (by simp [chain, lookupChild_cons, lookupChild_nil, hx])]

/-- The node at the full path of a `chain` is the deepest node: count
`k`, zero dispersion sums, likelihood `k * lg (len path)`. -/
theorem chain_nodeAt_full (lg : ℕ → ℚ) (k : ℕ) :
    ∀ (rem pref : List String) (D : NodeData), rem ≠ [] →
      (GTrie.node D (chain lg k pref rem)).nodeAt rem =
        some (.node (leafD lg k (pref ++ rem)) []) := by
  intro rem
  induction rem with
  | nil => intro pref D h; exact absurd rfl h
  | cons t rest ih =>
      intro pref D _
      rw [GTrie.nodeAt_cons_some rest
        (by simp [chain, lookupChild_cons] :
          lookupChild (chain lg k pref (t :: rest)) t =
          some (.node (nodeD lg k (pref ++ [t]) rest)
            (chain lg k (pref ++ [t]) rest)))]
      cases rest with
      | nil =>
          rw [GTrie.nodeAt_nil]
          simp [nodeD, chain]
      | cons u rest' =>
          rw [ih (pref ++ [t]) _ (by simp)]
          simp

/-- **C8 (amended).** Calling `_add(t)` `k ≥ 1` times on a fresh miner
yields the single path along the stemmed reversed candidate with
explicit statistics (`chain`): the set of trie nodes is the same as
after a single call; *every* node on the path has `count = k` (the
ancestors too, not only the deepest node — see the counterexample); the
deepest node keeps `sum_ft = sum_ft2 = 0` and `LH = k * lg (len t)`;
each ancestor carries `sum_ft = k - 1`, `sum_ft2 = k² - 1` (its
dispersion statistics are refreshed exactly once per insertion event
after the first) and `LH = k * lg (len longform) - (k-1)/(k²-1)` for
`k ≥ 2`. -/
theorem adeft_C8_repeated_insertion (lg : ℕ → ℚ) (stem : String → String)
    (t : List String) (k : ℕ) (ht : t ≠ []) (hk : 1 ≤ k) :
    ((fun m => ContinuousMiner.add lg stem m t)^[k] freshMiner).trie =
        .node rootD (chain lg k [] ((t.map stem).reverse)) ∧
    (∀ p, ((((fun m => ContinuousMiner.add lg stem m t)^[k]
          freshMiner).trie).nodeAt p).isSome ↔
        ((((fun m => ContinuousMiner.add lg stem m t)^[1]
          freshMiner).trie).nodeAt p).isSome) ∧
    (((fun m => ContinuousMiner.add lg stem m t)^[k]
        freshMiner).trie).nodeAt ((t.map stem).reverse) =
      some (.node (leafD lg k ((t.map stem).reverse)) []) ∧
    (leafD lg k ((t.map stem).reverse)).count = k ∧
    (leafD lg k ((t.map stem).reverse)).LH = (k : ℚ) * lg t.length := by
  have h := iterAdd_trie lg stem t ht k hk
  have h1 := iterAdd_trie lg stem t ht 1 (le_refl 1)
  have hr : (t.map stem).reverse ≠ [] := by simp [ht]
  refine ⟨h, ?_, ?_, rfl, ?_⟩
  · intro p
    rw [h, h1]
    exact chain_nodeAt_isSome lg k 1 p _ _ _ _
  · rw [h, chain_nodeAt_full lg k _ _ _ hr]
    simp
  · simp [leafD]

/-- Witness for C8 at `t = ["a", "b"]`, `k = 2`. -/
theorem adeft_C8_witness :
    ((["a", "b"] : List String) ≠ [] ∧ 1 ≤ 2) ∧
    ((fun m => ContinuousMiner.add (fun _ => (0 : ℚ)) id m ["a", "b"])^[2]
        freshMiner).trie =
      .node rootD (chain (fun _ => (0 : ℚ)) 2 []
        (((["a", "b"] : List String).map id).reverse)) :=
  ⟨⟨by simp, by norm_num⟩,
    (adeft_C8_repeated_insertion (fun _ => (0 : ℚ)) id ["a", "b"] 2
      (by simp) (by norm_num)).1⟩

/-- **C8 counterexample.** The claim states that after `k` insertions of
the same candidate *no node other than the full-sequence node* changes
its count.  In fact every node on the path is re-observed: after two
`_add(["a", "b"])` calls the ancestor node at path `["b"]` (the suffix
candidate `"b"`) has `count = 2`, although after one call it had
`count = 1`. -/
theorem adeft_C8_counterexample :
    (((((fun m => ContinuousMiner.add (fun _ => (0 : ℚ)) id m ["a", "b"])^[2]
          freshMiner).trie).nodeAt ["b"]).map (fun n => n.data.count) =
        some 2) ∧
    (((((fun m => ContinuousMiner.add (fun _ => (0 : ℚ)) id m ["a", "b"])^[1]
          freshMiner).trie).nodeAt ["b"]).map (fun n => n.data.count) =
        some 1) :=
  ⟨rfl, rfl⟩

/-! ### `ContinuousMiner._get_candidates` (claims C2, C7) -/

/-- The Python constant `string.punctuation`. -/
def pythonPunctuation : String := "!\"#$%&'()*+,-./:;<=>?@[\\]^_`{|}~"

/-- Python's `token in string.punctuation`: substring membership, true
exactly when the token is a contiguous substring of the punctuation
string (in particular true for every single punctuation character and
for the empty token, but false for e.g. `"$#"`). -/
def inPunctuation (t : String) : Bool :=
  (pythonPunctuation.data.tails).any (fun suf => t.data.isPrefixOf suf)

/-- `tokens[i] == '(' and tokens[i+1] == shortform and tokens[i+2] == ')'`. -/
def isPattern (sf : String) (tokens : List String) (i : ℕ) : Bool :=
  tokens.get? i == some "(" && tokens.get? (i + 1) == some sf &&
    tokens.get? (i + 2) == some ")"

/-- `for index in range(...)` with an early `return` on the first hit:
`scanFor p i rem` scans the indices `i, i+1, ..., i+rem-1` in order. -/
def scanFor (p : ℕ → Bool) : ℕ → ℕ → Option ℕ
  | _, 0 => none
  | i, rem + 1 => if p i then some i else scanFor p (i + 1) rem

/-- One token of the Greek-transliteration pass:
`if token in resources.greek_alphabet: candidate[i] = greek_alphabet[token]`.
The table `deft/resources.greek_alphabet` is a data file not among the
sources, so the mapping is abstracted into the parameter `greek`. -/
def greekSub (greek : String → Option String) (t : String) : String :=
  match greek t with
  | some r => r
  | none => t

/-- The stop-word loop of `_get_candidates`:
`i = len(candidate)-1; while i >= 0 and candidate[i] not in exclude: i -= 1`
followed by `candidate[i+1:]`, phrased as a walk over the reversed
candidate that accumulates the kept suffix. -/
def stopScan (exclude : List String) : List String → List String → List String
  | acc, [] => acc
  | acc, t :: rest =>
      if exclude.contains t then acc else stopScan exclude (t :: acc) rest

/-- `ContinuousMiner._get_candidates` (`src/deft/mine.py`, lines
272–296).  The loop runs over `range(len(tokens) - 3)`; on the first
index holding `( shortform )` it takes the tokens before the index,
drops those that are substrings of `string.punctuation`, transliterates
Greek letters, lower-cases, and truncates at the last stop word.  When
the loop finds nothing the Python function falls through and returns
`None` (not `[]`), modelled by the `none` branch. -/
def get_candidates (sf : String) (greek : String → Option String)
    (exclude : List String) (tokens : List String) : Option (List String) :=
  match scanFor (isPattern sf tokens) 0 (tokens.length - 3) with
  | none => none
  | some i =>
      let candidate := (tokens.take i).filter (fun t => !(inPunctuation t))
      let candidate2 := candidate.map (greekSub greek)
      let candidate3 := candidate2.map String.toLower
      some (stopScan exclude [] candidate3.reverse)

/-- The candidate post-processing in the words of the specification:
drop punctuation tokens, transliterate Greek letters, lower-case, and
keep the suffix after the last excluded token. -/
def processClaim (greek : String → Option String) (exclude : List String)
    (pre : List String) : List String :=
  let c := ((pre.filter (fun t => !(inPunctuation t))).map
    (greekSub greek)).map String.toLower
  (c.reverse.takeWhile (fun t => !(exclude.contains t))).reverse

theorem stopScan_eq (exclude : List String) :
    ∀ (l acc : List String),
      stopScan exclude acc l =
        (l.takeWhile (fun t => !(exclude.contains t))).reverse ++ acc := by
  intro l
  induction l with
  | nil => intro acc; simp [stopScan]
  | cons t rest ih =>
      intro acc
      by_cases h : t ∈ exclude
      · have hb : exclude.contains t = true := by simpa using h
        simp [stopScan, hb, h]
      · have hb : exclude.contains t = false := by simpa using h
        simp [stopScan, hb, h, ih]

theorem scanFor_spec (p : ℕ → Bool) :
    ∀ (rem i : ℕ), (∃ j, i ≤ j ∧ j < i + rem ∧ p j = true) →
      ∃ j, i ≤ j ∧ j < i + rem ∧ p j = true ∧
        (∀ m, i ≤ m → m < j → p m = false) ∧ scanFor p i rem = some j := by
  intro rem
  induction rem with
  | zero =>
      intro i h
      obtain ⟨j, hij, hlt, _⟩ := h
      omega
  | succ rem ih =>
      intro i h
      by_cases hp : p i = true
      · exact ⟨i, le_refl i, by omega, hp, fun m h1 h2 => absurd h1 (by omega),
          by simp [scanFor, hp]⟩
      · have hp' : p i = false := by
          cases hpv : p i
          · rfl
          · exact absurd hpv hp
        obtain ⟨j, hij, hlt, hpj⟩ := h
        have hij' : i + 1 ≤ j := by
          rcases Nat.eq_or_lt_of_le hij with h | h
          · exact absurd (h ▸ hpj) hp
          · omega
        obtain ⟨j', h1, h2, h3, h4, h5⟩ := ih (i + 1) ⟨j, hij', by omega, hpj⟩
        refine ⟨j', by omega, by omega, h3, ?_, by simp [scanFor, hp', h5]⟩
        intro m hm1 hm2
        rcases Nat.eq_or_lt_of_le hm1 with h | h
        · exact h ▸ hp'
        · exact h4 m (by omega) hm2

theorem scanFor_none (p : ℕ → Bool) :
    ∀ (rem i : ℕ), (∀ j, i ≤ j → j < i + rem → p j = false) →
      scanFor p i rem = none := by
  intro rem
  induction rem with
  | zero => intro i _; rfl
  | succ rem ih =>
      intro i h
      have hp : p i = false := h i (le_refl i) (by omega)
      simp only [scanFor, hp, if_false]
      exact ih (i + 1) (fun j h1 h2 => h j (by omega) (by omega))

/-- **C2 (amended).** If the pattern `( shortform )` occurs at some index
`i` with `i + 3 < len(tokens)` (i.e. not occupying the final three
positions) then `_get_candidates` finds the first pattern index `j` and
returns the tokens strictly before `j`, dropping every token that is a
contiguous substring of `string.punctuation` (all single punctuation
characters and the empty token — but not every multi-character
punctuation token), transliterating single Greek letters via the
`greek_alphabet` table, lower-casing, and keeping only the suffix after
the last excluded token.  (When the pattern occurs only in the final
three positions the loop bound `range(len(tokens) - 3)` misses it and
the function returns `None` — see the counterexample.) -/
theorem adeft_C2_get_candidates (sf : String) (greek : String → Option String)
    (exclude : List String) (tokens : List String) (i : ℕ)
    (hi : i + 3 < tokens.length) (hp : isPattern sf tokens i = true) :
    ∃ j, j + 3 < tokens.length ∧ isPattern sf tokens j = true ∧
      (∀ m, m < j → isPattern sf tokens m = false) ∧
      get_candidates sf greek exclude tokens =
        some (processClaim greek exclude (tokens.take j)) := by
  obtain ⟨j, h0j, hjlt, hpj, hmin, hscan⟩ :=
    scanFor_spec (isPattern sf tokens) (tokens.length - 3) 0
      ⟨i, Nat.zero_le i, by omega, hp⟩
  refine ⟨j, by omega, hpj, fun m hm => hmin m (Nat.zero_le m) hm, ?_⟩
  simp only [get_candidates, hscan]
  rw [stopScan_eq]
  simp [processClaim]

/-- Witness for C2: tokens `["foo", "(", "SF", ")", "."]` contain the
pattern at index 1 and the candidate is `["foo"]`. -/
theorem adeft_C2_witness :
    (1 + 3 < (["foo", "(", "SF", ")", "."] : List String).length ∧
      isPattern "SF" ["foo", "(", "SF", ")", "."] 1 = true) ∧
    ∃ j, j + 3 < (["foo", "(", "SF", ")", "."] : List String).length ∧
      isPattern "SF" ["foo", "(", "SF", ")", "."] j = true ∧
      (∀ m, m < j → isPattern "SF" ["foo", "(", "SF", ")", "."] m = false) ∧
      get_candidates "SF" (fun _ => none) [] ["foo", "(", "SF", ")", "."] =
        some (processClaim (fun _ => none) []
          ((["foo", "(", "SF", ")", "."] : List String).take j)) :=
  ⟨⟨by norm_num, rfl⟩,
    adeft_C2_get_candidates "SF" (fun _ => none) [] _ 1 (by norm_num) rfl⟩

/-- **C2 counterexample.** For `tokens = ["(", "SF", ")"]` the pattern
occurs at index 0, yet `range(len(tokens) - 3)` is empty, so
`_get_candidates` falls through and returns `None` instead of the empty
candidate list the claim predicts. -/
theorem adeft_C2_counterexample :
    isPattern "SF" ["(", "SF", ")"] 0 = true ∧
    get_candidates "SF" (fun _ => none) [] ["(", "SF", ")"] = none ∧
    (none : Option (List String)) ≠ some [] :=
  ⟨rfl, rfl, by simp⟩

/-- `consume`'s final step `self._add(candidate)` where
`candidate = self._get_candidates(...)` may be `None`: `_add` starts
with a comprehension iterating over its argument, and iterating `None`
raises `TypeError`, modelled as `Except.error`. -/
def addCandidate (lg : ℕ → ℚ) (stem : String → String) (m : Miner)
    (c : Option (List String)) : Except Unit Miner :=
  match c with
  | none => .error ()
  | some toks => .ok (ContinuousMiner.add lg stem m toks)

/-- **C7 (behaviour at the failing input).** For a token list without the
parenthesised shortform pattern, `_get_candidates` returns `None` — not
the empty list the claim describes — and `_add` applied to that result
raises `TypeError` instead of silently leaving the trie unchanged. -/
theorem adeft_C7_none_add_raises :
    get_candidates "SF" (fun _ => none) [] ["foo"] = none ∧
    addCandidate (fun _ => (0 : ℚ)) id freshMiner
      (get_candidates "SF" (fun _ => none) [] ["foo"]) = .error () :=
  ⟨rfl, rfl⟩

/-! ### `adeft.recognize`: the recognition trie

`adeft.recognize._TrieNode` carries `longform : Option String` and a
children dict, i.e. `GTrie (Option String)`; the root is
`.node none []`. -/

/-- Split a character list into the maximal space-free words, dropping
empty pieces; `cur` accumulates the current word in reverse. -/
def splitWords : List Char → List Char → List String
  | cur, [] => if cur.isEmpty then [] else [⟨cur.reverse⟩]
  | cur, c :: rest =>
      if c = ' ' then
        if cur.isEmpty then splitWords [] rest
        else ⟨cur.reverse⟩ :: splitWords [] rest
      else splitWords (c :: cur) rest

/-- Modelled from the spec: `adeft.nlp.tokenize` is repository code that
is not among the sources.  The specification describes the tokenizer as
splitting text into word/punctuation tokens; it is modelled as
whitespace splitting, and the `(token, position)` pairs it returns are
reduced to the token text, the only component the recognizer uses. -/
def tokenizeSpec (s : String) : List String :=
  splitWords [] s.data

/-- The reversed stemmed token sequence of a longform
(`edges = tuple(_stemmer.stem(token) for token, _ in tokenize(longform))[::-1]`,
`src/adeft/recognize.py` lines 211–212).  `stem` abstracts the external
`nltk` `EnglishStemmer`. -/
def edges (stem : String → String) (lf : String) : List String :=
  ((tokenizeSpec lf).map stem).reverse

/-- The body of `AdeftRecognizer._init_trie`'s loop for one longform
(`src/adeft/recognize.py` lines 214–223): walk the edge list; a missing
child is created (carrying the longform exactly when it is the last
edge); an existing child is descended into — in particular, when the
*last* edge already has a child, nothing is written and the longform is
dropped. -/
def insertEdges (lf : String) : GTrie (Option String) → List String →
    GTrie (Option String)
  | t, [] => t
  | .node d cs, [tok] =>
      match lookupChild cs tok with
      | none => .node d (cs ++ [(tok, .node (some lf) [])])
      | some _ => .node d cs
  | .node d cs, tok :: rest =>
      match lookupChild cs tok with
      | none => .node d (cs ++ [(tok, insertEdges lf (.node none []) rest)])
      | some c => .node d (replaceChild cs tok (insertEdges lf c rest))

/-- `AdeftRecognizer._init_trie`: fold the grounding map (a dict, so an
association list in insertion order) into a fresh root. -/
def init_trie (stem : String → String) (gm : List (String × String)) :
    GTrie (Option String) :=
  gm.foldl (fun t e => insertEdges e.1 t (edges stem e.1)) (.node none [])

/-- The loop of `AdeftRecognizer._search` (`src/adeft/recognize.py`
lines 241–248) over the already stemmed and reversed tokens: stop with
no result on a missing child, descend through children without a
longform, return the first stored longform encountered. -/
def searchLoop : GTrie (Option String) → List String → Option String
  | _, [] => none
  | .node _ cs, tok :: rest =>
      match lookupChild cs tok with
      | none => none
      | some (.node none ccs) => searchLoop (.node none ccs) rest
      | some (.node (some s) _) => some s

/-- `AdeftRecognizer._search(tokens)`: stem the reversed tokens, then
run the loop. -/
def AdeftRecognizer_search (stem : String → String)
    (t : GTrie (Option String)) (tokens : List String) : Option String :=
  searchLoop t (tokens.reverse.map stem)

theorem searchLoop_nil (t : GTrie (Option String)) : searchLoop t [] = none := by
  cases t
  rfl

theorem searchLoop_cons_none {cs : List (String × GTrie (Option String))}
    {d : Option String} {tok : String} (rest : List String)
    (h : lookupChild cs tok = none) :
    searchLoop (.node d cs) (tok :: rest) = none := by
  show (match lookupChild cs tok with
        | none => none
        | some (.node none ccs) => searchLoop (.node none ccs) rest
        | some (.node (some s) _) => some s) = none
  rw [h]

theorem searchLoop_cons_go {cs ccs : List (String × GTrie (Option String))}
    {d : Option String} {tok : String} (rest : List String)
    (h : lookupChild cs tok = some (.node none ccs)) :
    searchLoop (.node d cs) (tok :: rest) =
      searchLoop (.node none ccs) rest := by
  show (match lookupChild cs tok with
        | none => none
        | some (.node none ccs) => searchLoop (.node none ccs) rest
        | some (.node (some s) _) => some s) = _
  rw [h]

theorem searchLoop_cons_leaf {cs ccs : List (String × GTrie (Option String))}
    {d : Option String} {tok s : String}
    (rest : List String)
    (h : lookupChild cs tok = some (.node (some s) ccs)) :
    searchLoop (.node d cs) (tok :: rest) = some s := by
  show (match lookupChild cs tok with
        | none => none
        | some (.node none ccs) => searchLoop (.node none ccs) rest
        | some (.node (some s) _) => some s) = _
  rw [h]

/-- The `longform` stored at the node reached by a path, conflating
"no node" with "node without longform". -/
def longformAt (t : GTrie (Option String)) (p : List String) : Option String :=
  match t.nodeAt p with
  | none => none
  | some n => n.data

theorem longformAt_cons_none {d : Option String}
    {cs : List (String × GTrie (Option String))} {tok : String}
    (p : List String) (h : lookupChild cs tok = none) :
    longformAt (.node d cs) (tok :: p) = none := by
  simp only [longformAt, GTrie.nodeAt_cons_none p h]

theorem longformAt_cons_some {d : Option String}
    {cs : List (String × GTrie (Option String))} {tok : String}
    {c : GTrie (Option String)} (p : List String)
    (h : lookupChild cs tok = some c) :
    longformAt (.node d cs) (tok :: p) = longformAt c p := by
  simp only [longformAt, GTrie.nodeAt_cons_some p h]

/-- `searchLoop` returns the first longform found along the prefixes of
its token list. -/
theorem searchLoop_eq_findSome (r : List String) :
    ∀ t : GTrie (Option String),
      searchLoop t r =
        List.findSome? (fun j => longformAt t (r.take (j + 1)))
          (List.range r.length) := by
  induction r with
  | nil => intro t; rw [searchLoop_nil]; rfl
  | cons tok rest ih =>
      intro t
      cases t with
      | node d cs =>
      rw [show (tok :: rest).length = rest.length + 1 from rfl,
        List.range_succ_eq_map, List.findSome?_cons]
      cases hc : lookupChild cs tok with
      | none =>
          rw [searchLoop_cons_none rest hc]
          have h0 : longformAt (GTrie.node d cs) ((tok :: rest).take (0 + 1)) =
              none := by
            rw [show (0 + 1) = 1 from rfl]
            rw [show (tok :: rest).take 1 = [tok] from by simp]
            exact longformAt_cons_none [] hc
          rw [h0]
          rw [List.findSome?_map]
          symm
          rw [List.findSome?_eq_none_iff]
          intro j _
          show longformAt (GTrie.node d cs) ((tok :: rest).take (j.succ + 1)) =
            none
          rw [show (tok :: rest).take (j.succ + 1) = tok :: rest.take (j + 1)
            from List.take_succ_cons]
          exact longformAt_cons_none _ hc
      | some c =>
          cases c with
          | node lf ccs =>
          cases lf with
          | some s =>
              rw [searchLoop_cons_leaf rest hc]
              have h0 : longformAt (GTrie.node d cs)
                  ((tok :: rest).take (0 + 1)) = some s := by
                rw [show (0 + 1) = 1 from rfl]
                rw [show (tok :: rest).take 1 = [tok] from by simp]
                rw [longformAt_cons_some [] hc]
                rfl
              rw [h0]
          | none =>
              rw [searchLoop_cons_go rest hc]
              have h0 : longformAt (GTrie.node d cs)
                  ((tok :: rest).take (0 + 1)) = none := by
                rw [show (0 + 1) = 1 from rfl]
                rw [show (tok :: rest).take 1 = [tok] from by simp]
                rw [longformAt_cons_some [] hc]
                rfl
              rw [h0, List.findSome?_map, ih (.node none ccs)]
              congr 1
              funext j
              show longformAt (GTrie.node none ccs) (rest.take (j + 1)) =
                longformAt (GTrie.node d cs) ((tok :: rest).take (j.succ + 1))
              rw [show (tok :: rest).take (j.succ + 1) =
                  tok :: rest.take (j + 1) from List.take_succ_cons]
              rw [longformAt_cons_some _ hc]

/-- **C4.** `_search` stems the reversed token list and walks the trie
from the token nearest the shortform outward; it returns the longform of
the *first* node on the path that stores one (even when a longer match
exists deeper), and returns `None` when a required child is absent
before any longform-bearing node (a missing node makes every deeper
`longformAt` equal to `none`, so the right-hand side is `none`). -/
theorem adeft_C4_search_first_leaf (stem : String → String)
    (t : GTrie (Option String)) (tokens : List String) :
    AdeftRecognizer_search stem t tokens =
      List.findSome?
        (fun j => longformAt t ((tokens.reverse.map stem).take (j + 1)))
        (List.range (tokens.reverse.map stem).length) :=
  searchLoop_eq_findSome (tokens.reverse.map stem) t

/-! ### `_init_trie` and the retrievability of grounding-map entries
(claim C3) -/

/-- The `longform` slot of the node reached by a path: `none` when no
node exists there, `some v` when the node exists and stores `v`. -/
def nodeLongformAt (t : GTrie (Option String)) (p : List String) :
    Option (Option String) :=
  (t.nodeAt p).map GTrie.data

theorem nodeLongformAt_nil (t : GTrie (Option String)) :
    nodeLongformAt t [] = some t.data := by
  simp [nodeLongformAt, GTrie.nodeAt_nil]

theorem nodeLongformAt_cons_none {d : Option String}
    {cs : List (String × GTrie (Option String))} {x : String}
    (q : List String) (h : lookupChild cs x = none) :
    nodeLongformAt (.node d cs) (x :: q) = none := by
  simp [nodeLongformAt, GTrie.nodeAt_cons_none q h]

theorem nodeLongformAt_cons_some {d : Option String}
    {cs : List (String × GTrie (Option String))} {x : String}
    {c : GTrie (Option String)} (q : List String)
    (h : lookupChild cs x = some c) :
    nodeLongformAt (.node d cs) (x :: q) = nodeLongformAt c q := by
  simp [nodeLongformAt, GTrie.nodeAt_cons_some q h]

theorem insertEdges_nil (lf : String) (t : GTrie (Option String)) :
    insertEdges lf t [] = t := by
  cases t
  rfl

theorem insertEdges_single_none (lf : String) {d : Option String}
    {cs : List (String × GTrie (Option String))} {tok : String}
    (h : lookupChild cs tok = none) :
    insertEdges lf (.node d cs) [tok] =
      .node d (cs ++ [(tok, .node (some lf) [])]) := by
  simp only [insertEdges, h]

theorem insertEdges_single_some (lf : String) {d : Option String}
    {cs : List (String × GTrie (Option String))} {tok : String}
    {c : GTrie (Option String)} (h : lookupChild cs tok = some c) :
    insertEdges lf (.node d cs) [tok] = .node d cs := by
  simp only [insertEdges, h]

theorem insertEdges_cons_none (lf : String) {d : Option String}
    {cs : List (String × GTrie (Option String))} {tok : String}
    (u : String) (rest : List String) (h : lookupChild cs tok = none) :
    insertEdges lf (.node d cs) (tok :: u :: rest) =
      .node d (cs ++ [(tok, insertEdges lf (.node none []) (u :: rest))]) := by
  simp only [insertEdges, h]

theorem insertEdges_cons_some (lf : String) {d : Option String}
    {cs : List (String × GTrie (Option String))} {tok : String}
    {c : GTrie (Option String)} (u : String) (rest : List String)
    (h : lookupChild cs tok = some c) :
    insertEdges lf (.node d cs) (tok :: u :: rest) =
      .node d (replaceChild cs tok (insertEdges lf c (u :: rest))) := by
  simp only [insertEdges, h]

/-- `_init_trie` never modifies an existing node: a longform already
stored somewhere survives any later insertion. -/
theorem insertEdges_preserve (lf : String) :
    ∀ (E : List String) (t : GTrie (Option String)) (p : List String)
      (v : Option String),
      nodeLongformAt t p = some v →
      nodeLongformAt (insertEdges lf t E) p = some v := by
  intro E
  induction E with
  | nil => intro t p v h; rw [insertEdges_nil]; exact h
  | cons tok rest ih =>
      intro t p v h
      cases t with
      | node d cs =>
      cases rest with
      | nil =>
          cases hc : lookupChild cs tok with
          | some c => rw [insertEdges_single_some lf hc]; exact h
          | none =>
              rw [insertEdges_single_none lf hc]
              cases p with
              | nil => rw [nodeLongformAt_nil] at h ⊢; exact h
              | cons x q =>
                  cases hcx : lookupChild cs x with
                  | none =>
                      rw [nodeLongformAt_cons_none q hcx] at h
                      exact absurd h (by simp)
                  | some c' =>
                      rw [nodeLongformAt_cons_some q hcx] at h
                      rw [nodeLongformAt_cons_some q
                        (lookupChild_append_left _ hcx)]
                      exact h
      | cons u rest' =>
          cases hc : lookupChild cs tok with
          | none =>
              rw [insertEdges_cons_none lf u rest' hc]
              cases p with
              | nil => rw [nodeLongformAt_nil] at h ⊢; exact h
              | cons x q =>
                  cases hcx : lookupChild cs x with
                  | none =>
                      rw [nodeLongformAt_cons_none q hcx] at h
                      exact absurd h (by simp)
                  | some c' =>
                      rw [nodeLongformAt_cons_some q hcx] at h
                      rw [nodeLongformAt_cons_some q
                        (lookupChild_append_left _ hcx)]
                      exact h
          | some c =>
              rw [insertEdges_cons_some lf u rest' hc]
              cases p with
              | nil => rw [nodeLongformAt_nil] at h ⊢; exact h
              | cons x q =>
                  by_cases hx : x = tok
                  · subst hx
                    rw [nodeLongformAt_cons_some q hc] at h
                    rw [nodeLongformAt_cons_some q
                      (lookupChild_replaceChild_self cs x _ (by simp [hc]))]
                    exact ih c q v h
                  · cases hcx : lookupChild cs x with
                    | none =>
                        rw [nodeLongformAt_cons_none q hcx] at h
                        exact absurd h (by simp)
                    | some c' =>
                        rw [nodeLongformAt_cons_some q hcx] at h
                        rw [nodeLongformAt_cons_some q
                          ((lookupChild_replaceChild_ne cs tok x _ hx).trans
                            hcx)]
                        exact h

/-- Any node present after an insertion either existed before or lies on
the inserted edge path. -/
theorem insertEdges_nodeAt_dom (lf : String) :
    ∀ (E : List String) (t : GTrie (Option String)) (p : List String),
      ((insertEdges lf t E).nodeAt p).isSome →
      (t.nodeAt p).isSome ∨ p <+: E := by
  intro E
  induction E with
  | nil => intro t p h; rw [insertEdges_nil] at h; exact Or.inl h
  | cons tok rest ih =>
      intro t p h
      cases t with
      | node d cs =>
      cases rest with
      | nil =>
          cases hc : lookupChild cs tok with
          | some c => rw [insertEdges_single_some lf hc] at h; exact Or.inl h
          | none =>
              rw [insertEdges_single_none lf hc] at h
              cases p with
              | nil => exact Or.inl (by rw [GTrie.nodeAt_nil]; rfl)
              | cons x q =>
                  cases hcx : lookupChild cs x with
                  | some c' =>
                      rw [GTrie.nodeAt_cons_some q
                        (lookupChild_append_left _ hcx)] at h
                      refine Or.inl ?_
                      rw [GTrie.nodeAt_cons_some q hcx]
                      exact h
                  | none =>
                      by_cases hx : tok = x
                      · subst hx
                        rw [GTrie.nodeAt_cons_some q
                          (by rw [lookupChild_append_right _ hcx,
                            lookupChild_cons, if_pos rfl])] at h
                        cases q with
                        | nil => exact Or.inr (by simp)
                        | cons y q' =>
                            rw [GTrie.nodeAt_cons_none q'
                              (lookupChild_nil y)] at h
                            exact absurd h (by simp)
                      · rw [GTrie.nodeAt_cons_none q
                          (by rw [lookupChild_append_right _ hcx,
                            lookupChild_cons, if_neg hx, lookupChild_nil])]
                          at h
                        exact absurd h (by simp)
      | cons u rest' =>
          cases hc : lookupChild cs tok with
          | none =>
              rw [insertEdges_cons_none lf u rest' hc] at h
              cases p with
              | nil => exact Or.inl (by rw [GTrie.nodeAt_nil]; rfl)
              | cons x q =>
                  cases hcx : lookupChild cs x with
                  | some c' =>
                      rw [GTrie.nodeAt_cons_some q
                        (lookupChild_append_left _ hcx)] at h
                      refine Or.inl ?_
                      rw [GTrie.nodeAt_cons_some q hcx]
                      exact h
                  | none =>
                      by_cases hx : tok = x
                      · subst hx
                        rw [GTrie.nodeAt_cons_some q
                          (by rw [lookupChild_append_right _ hcx,
                            lookupChild_cons, if_pos rfl])] at h
                        rcases ih (.node none []) q h with h' | h'
                        · cases q with
                          | nil => exact Or.inr (by simp)
                          | cons y q' =>
                              rw [GTrie.nodeAt_cons_none q'
                                (lookupChild_nil y)] at h'
                              exact absurd h' (by simp)
                        · exact Or.inr
                            (List.cons_prefix_cons.2 ⟨rfl, h'⟩)
                      · rw [GTrie.nodeAt_cons_none q
                          (by rw [lookupChild_append_right _ hcx,
                            lookupChild_cons, if_neg hx, lookupChild_nil])]
                          at h
                        exact absurd h (by simp)
          | some c =>
              rw [insertEdges_cons_some lf u rest' hc] at h
              cases p with
              | nil => exact Or.inl (by rw [GTrie.nodeAt_nil]; rfl)
              | cons x q =>
                  by_cases hx : x = tok
                  · subst hx
                    rw [GTrie.nodeAt_cons_some q
                      (lookupChild_replaceChild_self cs x _ (by simp [hc]))]
                      at h
                    rcases ih c q h with h' | h'
                    · refine Or.inl ?_
                      rw [GTrie.nodeAt_cons_some q hc]
                      exact h'
                    · exact Or.inr (List.cons_prefix_cons.2 ⟨rfl, h'⟩)
                  · cases hcx : lookupChild cs x with
                    | none =>
                        rw [GTrie.nodeAt_cons_none q
                          ((lookupChild_replaceChild_ne cs tok x _ hx).trans
                            hcx)] at h
                        exact absurd h (by simp)
                    | some c' =>
                        rw [GTrie.nodeAt_cons_some q
                          ((lookupChild_replaceChild_ne cs tok x _ hx).trans
                            hcx)] at h
                        refine Or.inl ?_
                        rw [GTrie.nodeAt_cons_some q hcx]
                        exact h

/-- When the full edge path is absent from the trie, inserting it stores
the longform at its end. -/
theorem insertEdges_stores (lf : String) :
    ∀ (E : List String) (t : GTrie (Option String)), E ≠ [] →
      t.nodeAt E = none →
      nodeLongformAt (insertEdges lf t E) E = some (some lf) := by
  intro E
  induction E with
  | nil => intro t h; exact absurd rfl h
  | cons tok rest ih =>
      intro t _ habs
      cases t with
      | node d cs =>
      cases rest with
      | nil =>
          cases hc : lookupChild cs tok with
          | some c =>
              rw [GTrie.nodeAt_cons_some [] hc, GTrie.nodeAt_nil] at habs
              exact absurd habs (by simp)
          | none =>
              rw [insertEdges_single_none lf hc]
              rw [nodeLongformAt_cons_some []
                (by rw [lookupChild_append_right _ hc, lookupChild_cons,
                  if_pos rfl])]
              rw [nodeLongformAt_nil]
              rfl
      | cons u rest' =>
          cases hc : lookupChild cs tok with
          | none =>
              rw [insertEdges_cons_none lf u rest' hc]
              rw [nodeLongformAt_cons_some (u :: rest')
                (by rw [lookupChild_append_right _ hc, lookupChild_cons,
                  if_pos rfl])]
              exact ih (.node none []) (by simp)
                (GTrie.nodeAt_cons_none rest' (lookupChild_nil u))
          | some c =>
              rw [GTrie.nodeAt_cons_some (u :: rest') hc] at habs
              rw [insertEdges_cons_some lf u rest' hc]
              rw [nodeLongformAt_cons_some (u :: rest')
                (lookupChild_replaceChild_self cs tok _ (by simp [hc]))]
              exact ih c (by simp) habs

/-- Folding further grounding-map entries preserves a stored longform. -/
theorem foldInsert_preserve (stem : String → String) :
    ∀ (gm : List (String × String)) (t : GTrie (Option String))
      (p : List String) (v : Option String),
      nodeLongformAt t p = some v →
      nodeLongformAt
        (gm.foldl (fun t e => insertEdges e.1 t (edges stem e.1)) t) p =
        some v := by
  intro gm
  induction gm with
  | nil => intro t p v h; exact h
  | cons f rest ih =>
      intro t p v h
      rw [List.foldl_cons]
      exact ih _ p v (insertEdges_preserve f.1 (edges stem f.1) t p v h)

/-- The generalised induction behind C3: folding a prefix-free grounding
map whose edge paths are absent from the accumulator stores every
entry. -/
theorem foldInsert_stores (stem : String → String) :
    ∀ (gm : List (String × String)) (t : GTrie (Option String)),
      (∀ e ∈ gm, edges stem e.1 ≠ []) →
      (∀ e ∈ gm, t.nodeAt (edges stem e.1) = none) →
      List.Pairwise (fun a b => ¬(edges stem a.1 <+: edges stem b.1) ∧
        ¬(edges stem b.1 <+: edges stem a.1)) gm →
      ∀ e ∈ gm,
        nodeLongformAt
          (gm.foldl (fun t e => insertEdges e.1 t (edges stem e.1)) t)
          (edges stem e.1) = some (some e.1) := by
  intro gm
  induction gm with
  | nil => intro t _ _ _ e he; exact absurd he (by simp)
  | cons f rest ih =>
      intro t hne habs hpw e he
      rw [List.foldl_cons]
      rcases List.mem_cons.1 he with rfl | he'
      · exact foldInsert_preserve stem rest _ _ _
          (insertEdges_stores e.1 (edges stem e.1) t
            (hne e (by simp)) (habs e (by simp)))
      · refine ih (insertEdges f.1 t (edges stem f.1))
          (fun x hx => hne x (by simp [hx]))
          (fun x hx => ?_) ((List.pairwise_cons.1 hpw).2) e he'
        rcases hres : (insertEdges f.1 t (edges stem f.1)).nodeAt
            (edges stem x.1) with _ | n
        · rfl
        · exfalso
          have hsome : ((insertEdges f.1 t (edges stem f.1)).nodeAt
              (edges stem x.1)).isSome := by rw [hres]; rfl
          rcases insertEdges_nodeAt_dom f.1 (edges stem f.1) t
              (edges stem x.1) hsome with h' | h'
          · rw [habs x (by simp [hx])] at h'
            exact absurd h' (by simp)
          · exact ((List.pairwise_cons.1 hpw).1 x hx).2 h'

/-- **C3 (amended).** After `_init_trie`, a grounding-map entry is stored
at (and retrievable from) the trie node reached by its reversed stemmed
token sequence *provided* no entry's reversed stemmed sequence is a
prefix of another's (equivalently: no stemmed longform is a suffix of
another) — in that case the property holds for every entry regardless of
insertion order.  Without this proviso an entry whose full path node
already exists is silently dropped (`_init_trie` line 222 descends
without writing): see the counterexample. -/
theorem adeft_C3_init_trie (stem : String → String)
    (gm : List (String × String))
    (hne : ∀ e ∈ gm, edges stem e.1 ≠ [])
    (hpw : List.Pairwise (fun a b => ¬(edges stem a.1 <+: edges stem b.1) ∧
      ¬(edges stem b.1 <+: edges stem a.1)) gm) :
    ∀ e ∈ gm,
      nodeLongformAt (init_trie stem gm) (edges stem e.1) =
        some (some e.1) := by
  refine foldInsert_stores stem gm (.node none []) hne (fun e he => ?_) hpw
  rcases hE : edges stem e.1 with _ | ⟨x, q⟩
  · exact absurd hE (hne e he)
  · exact GTrie.nodeAt_cons_none q (lookupChild_nil x)

def gmW : List (String × String) := [("a b", "G1"), ("c b", "G2")]

/-- Witness for C3: two longforms whose reversed token sequences
`["b", "a"]` and `["b", "c"]` are not prefixes of one another; both
entries are retrievable. -/
theorem adeft_C3_witness :
    ((∀ e ∈ gmW, edges id e.1 ≠ []) ∧
      List.Pairwise (fun a b => ¬(edges id a.1 <+: edges id b.1) ∧
        ¬(edges id b.1 <+: edges id a.1)) gmW) ∧
    (∀ e ∈ gmW,
      nodeLongformAt (init_trie id gmW) (edges id e.1) = some (some e.1)) :=
  ⟨⟨by decide, by decide⟩, adeft_C3_init_trie id gmW (by decide) (by decide)⟩

/-- **C3 counterexample.** With grounding map
`{"a b": "G1", "b": "G2"}` (in that order), the node reached by the
reversed stemmed tokens of `"b"` exists but stores no longform — the
entry `("b", "G2")` is not retrievable, because the final node of its
path was already created as an interior node of `"a b"`'s path. -/
theorem adeft_C3_counterexample :
    nodeLongformAt (init_trie id [("a b", "G1"), ("b", "G2")])
        (edges id "b") = some none ∧
    nodeLongformAt (init_trie id [("a b", "G1"), ("b", "G2")])
        (edges id "b") ≠ some (some "b") :=
  ⟨rfl, by decide⟩

/-! ### `BaseRecognizer.recognize` end to end (claim C5) -/

theorem replaceChild_nil {α : Type} (tok : String) (c : α) :
    replaceChild ([] : List (String × α)) tok c = [] := rfl

/-- The last `n` characters of a character list, as a string. -/
def takeRightStr (l : List Char) (n : ℕ) : String :=
  ⟨l.drop (l.length - n)⟩

/-- Fuel-driven split of a character list at every occurrence of the
non-empty pattern `p0 :: prest`; `cur` holds the current piece in
reverse.  The fuel only needs to dominate the list length, each step
consuming one unit and at least one character. -/
def splitOnPatFuel (p0 : Char) (prest : List Char) :
    ℕ → List Char → List Char → List (List Char)
  | 0, cur, _ => [cur.reverse]
  | _ + 1, cur, [] => [cur.reverse]
  | fuel + 1, cur, c :: rest =>
      if (p0 :: prest).isPrefixOf (c :: rest) then
        cur.reverse :: splitOnPatFuel p0 prest fuel [] (rest.drop prest.length)
      else splitOnPatFuel p0 prest fuel (c :: cur) rest

/-- Split a string at every occurrence of a non-empty pattern (the
behaviour of Python's `str.split(pattern)` for the patterns used here:
`"(" + shortform + ")"`, never empty). -/
def splitOnPat (p0 : Char) (prest : List Char) (cs : List Char) :
    List (List Char) :=
  splitOnPatFuel p0 prest cs.length [] cs

/-- Modelled from the spec: `adeft.util.get_candidate_fragments` is
repository code not among the sources; the specification describes it as
extracting, for each shortform occurrence, the text within a character
window preceding the defining pattern.  It is modelled by splitting the
text at every `"(<shortform>)"` occurrence and keeping the final
`window` characters of each piece that precedes an occurrence. -/
def get_candidate_fragments (text sf : String) (window : ℕ) : List String :=
  match ("(" ++ sf ++ ")").data with
  | [] => []
  | p0 :: prest =>
      ((splitOnPat p0 prest text.data).dropLast).map
        (fun l => takeRightStr l window)

/-- Modelled from the spec: `adeft.util.get_candidate` is repository
code not among the sources; the specification describes it as
tokenizing the fragment, stripping punctuation tokens, and keeping the
suffix after the last excluded token. -/
def get_candidate (exclude : List String) (frag : String) : List String :=
  let toks := (tokenizeSpec frag).filter (fun t => !(inPunctuation t))
  (toks.reverse.takeWhile (fun t => !(exclude.contains t))).reverse

/-- `BaseRecognizer.recognize` specialised by `AdeftRecognizer`
(`src/adeft/recognize.py` lines 66–79): for every candidate fragment,
skip it when empty, extract candidate tokens, `_search` the trie, and on
a (truthy) hit add `_post_process(longform) = grounding_map[longform]`
to the returned set (modelled as a duplicate-free list). -/
def recognizeM (stem : String → String) (gm : List (String × String))
    (sf : String) (window : ℕ) (exclude : List String) (text : String) :
    List String :=
  (get_candidate_fragments text sf window).foldl (fun acc frag =>
    if frag = "" then acc
    else
      match AdeftRecognizer_search stem (init_trie stem gm)
          (get_candidate exclude frag) with
      | none => acc
      | some lf =>
          if lf = "" then acc
          else
            match lookupChild gm lf with
            | none => acc
            | some g => if g ∈ acc then acc else acc ++ [g]) []

/-- Inserting a longform whose reversed edges are a proper prefix of an
already inserted four-edge path leaves the trie unchanged (the final
edge finds an existing child and nothing is written). -/
theorem insert_two_shape (lf1 lf2 : String) (b k f n : String) :
    insertEdges lf2
        (insertEdges lf1 (.node none []) [b, k, f, n]) [b, k, f] =
      .node none [(b, .node none [(k, .node none [(f, .node none
        [(n, .node (some lf1) [])])])])] := by
  have h1 : insertEdges lf1 (.node none []) [b, k, f, n] =
      .node none [(b, .node none [(k, .node none [(f, .node none
        [(n, .node (some lf1) [])])])])] := rfl
  rw [h1]
  rw [insertEdges_cons_some lf2 k [f]
    (by rw [lookupChild_cons, if_pos rfl])]
  rw [insertEdges_cons_some lf2 f []
    (by rw [lookupChild_cons, if_pos rfl])]
  rw [insertEdges_single_some lf2
    (by rw [lookupChild_cons, if_pos rfl])]
  simp [replaceChild_cons, replaceChild_nil]

/-- Walking the four-edge path returns the longform stored at its end;
the three interior nodes store nothing. -/
theorem search_four_shape (lf1 : String) (b k f n : String) :
    searchLoop (.node none [(b, .node none [(k, .node none [(f, .node none
        [(n, .node (some lf1) [])])])])]) [b, k, f, n] = some lf1 := by
  rw [searchLoop_cons_go [k, f, n] (by rw [lookupChild_cons, if_pos rfl])]
  rw [searchLoop_cons_go [f, n] (by rw [lookupChild_cons, if_pos rfl])]
  rw [searchLoop_cons_go [n] (by rw [lookupChild_cons, if_pos rfl])]
  rw [searchLoop_cons_leaf [] (by rw [lookupChild_cons, if_pos rfl])]

/-- **C5.** With grounding map
`{"nuclear factor kappa b": "G1", "factor kappa b": "G2"}` (entries in
that order) and shortform `"NFKB"`, `recognize` on text containing
`"nuclear factor kappa b (NFKB)"` returns exactly `{"G1"}` and not
`{"G2"}` — for every stemmer, since the walk from the token nearest the
shortform reaches the node of `"nuclear factor kappa b"` while the
interior node of `"factor kappa b"`'s path stores nothing. -/
theorem adeft_C5_recognize_precedence (stem : String → String) :
    recognizeM stem
      [("nuclear factor kappa b", "G1"), ("factor kappa b", "G2")]
      "NFKB" 100 [] "nuclear factor kappa b (NFKB)" = ["G1"] := by
  have hfrag : get_candidate_fragments "nuclear factor kappa b (NFKB)"
      "NFKB" 100 = ["nuclear factor kappa b "] := rfl
  have hcand : get_candidate [] "nuclear factor kappa b " =
      ["nuclear", "factor", "kappa", "b"] := rfl
  have htrie : init_trie stem
      [("nuclear factor kappa b", "G1"), ("factor kappa b", "G2")] =
      .node none [(stem "b", .node none [(stem "kappa", .node none
        [(stem "factor", .node none [(stem "nuclear",
          .node (some "nuclear factor kappa b") [])])])])] := by
    show insertEdges "factor kappa b"
        (insertEdges "nuclear factor kappa b" (.node none [])
          (edges stem "nuclear factor kappa b"))
        (edges stem "factor kappa b") = _
    rw [show edges stem "nuclear factor kappa b" =
      [stem "b", stem "kappa", stem "factor", stem "nuclear"] from rfl]
    rw [show edges stem "factor kappa b" =
      [stem "b", stem "kappa", stem "factor"] from rfl]
    exact insert_two_shape "nuclear factor kappa b" "factor kappa b" _ _ _ _
  have hsearch : AdeftRecognizer_search stem
      (init_trie stem
        [("nuclear factor kappa b", "G1"), ("factor kappa b", "G2")])
      ["nuclear", "factor", "kappa", "b"] = some "nuclear factor kappa b" := by
    rw [AdeftRecognizer_search, htrie]
    rw [show (["nuclear", "factor", "kappa", "b"] : List String).reverse.map
        stem = [stem "b", stem "kappa", stem "factor", stem "nuclear"]
      from rfl]
    exact search_four_shape "nuclear factor kappa b" _ _ _ _
  rw [recognizeM, hfrag]
  rw [List.foldl_cons, List.foldl_nil]
  rw [if_neg (by decide : ¬ ("nuclear factor kappa b " = ""))]
  rw [hcand, hsearch]
  decide

/-! ### `OneShotRecognizer` construction (claim C6) -/

/-- `OneShotRecognizer` state: `scorer` is `none` when the
`AdeftLongformScorer` attribute was never assigned. -/
structure OneShotRecognizer (S : Type) where
  scorer : Option S

/-- `OneShotRecognizer.__init__` (`src/adeft/recognize.py` lines
276–283): `self.scorer = AdeftLongformScorer(...)` inside
`try: ... except NameError:` — the `NameError` raised when the scorer
class failed to import is *caught and logged*, `self.scorer` stays
unassigned, and `super().__init__` completes, so construction succeeds
either way.  The external constructor is abstracted as an
`Except`-valued argument. -/
def oneShotInit {S : Type} (ctor : Except Unit S) :
    Except Unit (OneShotRecognizer S) :=
  match ctor with
  | .ok s => .ok ⟨some s⟩
  | .error _ => .ok ⟨none⟩

/-- `OneShotRecognizer._search` (`src/adeft/recognize.py` lines
285–288): `result = self.scorer.score(tokens); return result[0]`.  With
no `scorer` attribute this raises `AttributeError`; with an empty result
list, `result[0]` raises `IndexError`; both are modelled as
`Except.error`. -/
def oneShot_search {S : Type} (score : S → List String → List String)
    (r : OneShotRecognizer S) (tokens : List String) : Except Unit String :=
  match r.scorer with
  | none => .error ()
  | some s =>
      match score s tokens with
      | [] => .error ()
      | x :: _ => .ok x

/-- **C6 counterexample.** The claim says construction must *raise* when
the scorer is unavailable; in fact `__init__` catches the `NameError`,
logs, and returns a constructed recognizer with no scorer. -/
theorem adeft_C6_counterexample :
    oneShotInit (S := Unit) (.error ()) = .ok ⟨none⟩ ∧
    oneShotInit (S := Unit) (.error ()) ≠ .error () :=
  ⟨rfl, by simp [oneShotInit]⟩

/-- **C6 (amended).** When the external `AdeftLongformScorer` is
unavailable, `OneShotRecognizer` construction *succeeds* (the
`NameError` is caught and only logged) and the recognizer is left
without a scorer; the failure surfaces only later, when `_search`
touches the missing attribute and raises. -/
theorem adeft_C6_silent_construction (S : Type) :
    (∀ e : Unit, oneShotInit (S := S) (.error e) = .ok ⟨none⟩) ∧
    (∀ (score : S → List String → List String) (tokens : List String),
      oneShot_search score (⟨none⟩ : OneShotRecognizer S) tokens =
        .error ()) :=
  ⟨fun _ => rfl, fun _ _ => rfl⟩

/-! ### `strip_defining_patterns` (claim C10) -/

/-- Python's `\s` on the characters occurring here. -/
def isWsC (c : Char) : Bool := c.isWhitespace

/-- Match the tail of the regex `\(\s*<shortform>\s*\)` right after an
opening parenthesis: skip whitespace, the literal shortform, whitespace,
and a closing parenthesis, returning the remainder.  (The `\s*` are
matched greedily without backtracking, which coincides with the regex
for shortforms that do not start with whitespace.) -/
def matchParenAfter (sf : List Char) (cs : List Char) : Option (List Char) :=
  let cs1 := cs.dropWhile isWsC
  if sf.isPrefixOf cs1 then
    match (cs1.drop sf.length).dropWhile isWsC with
    | ')' :: rem => some rem
    | _ => none
  else none

/-- The scan of `re.sub(r'\(\s*%s\s*\)' % shortform, ' ' + shortform + ' ', text)`
(`src/adeft/recognize.py` lines 127–129): leftmost non-overlapping
matches are replaced by the shortform padded with single spaces.  The
fuel dominates the character count; every step consumes at least one
character and one unit of fuel. -/
def subParenFuel (sf : List Char) : ℕ → List Char → List Char
  | 0, cs => cs
  | _ + 1, [] => []
  | fuel + 1, c :: rest =>
      if c = '(' then
        match matchParenAfter sf rest with
        | some rem => ' ' :: (sf ++ (' ' :: subParenFuel sf fuel rem))
        | none => c :: subParenFuel sf fuel rest
      else c :: subParenFuel sf fuel rest

/-- The whole `re.sub` replacing parenthesised shortform occurrences. -/
def subParen (sf text : String) : String :=
  ⟨subParenFuel sf.data text.data.length text.data⟩

/-- Split a character list at whitespace runs (Python `str.split()`),
dropping empty pieces. -/
def splitWsWords : List Char → List Char → List (List Char)
  | cur, [] => if cur.isEmpty then [] else [cur.reverse]
  | cur, c :: rest =>
      if isWsC c then
        if cur.isEmpty then splitWsWords [] rest
        else cur.reverse :: splitWsWords [] rest
      else splitWsWords (c :: cur) rest

/-- Join words with single spaces. -/
def joinSpaces : List (List Char) → List Char
  | [] => []
  | [w] => w
  | w :: ws => w ++ ' ' :: joinSpaces ws

/-- `' '.join(text.split())` (`src/adeft/recognize.py` line 130):
whitespace normalisation. -/
def normalizeWs (s : String) : String :=
  ⟨joinSpaces (splitWsWords [] s.data)⟩

/-- Python `str.split()` as a list of strings (used for
`len(longform.split())`). -/
def splitWs (s : String) : List String :=
  (splitWsWords [] s.data).map (fun l => ⟨l⟩)

/-- Python `str.replace(pat, repl)`: replace every non-overlapping
occurrence.  (For the empty pattern the Python semantics differ, but the
pattern used here, a stripped fragment containing a defining pattern, is
never empty.) -/
def replaceAllFuel (pat repl : List Char) : ℕ → List Char → List Char
  | 0, cs => cs
  | _ + 1, [] => []
  | fuel + 1, c :: rest =>
      if pat ≠ [] ∧ pat.isPrefixOf (c :: rest) then
        repl ++ replaceAllFuel pat repl fuel ((c :: rest).drop pat.length)
      else c :: replaceAllFuel pat repl fuel rest

/-- `str.replace` on strings. -/
def replaceStr (s pat repl : String) : String :=
  ⟨replaceAllFuel pat.data repl.data s.data.length s.data⟩

/-- Python `str.strip()`: drop leading and trailing whitespace. -/
def stripWsStr (s : String) : String :=
  ⟨((s.data.dropWhile isWsC).reverse.dropWhile isWsC).reverse⟩

/-- `re.match(r'\w+', token)`: the token starts with a word character. -/
def isWordTok (t : String) : Bool :=
  match t.data with
  | [] => false
  | c :: _ => c.isAlphanum || c = '_'

/-- The backward walk of `strip_defining_patterns`
(`src/adeft/recognize.py` lines 116–123): starting from the last token,
consume tokens until `numW` word tokens have been consumed, returning
how many tokens were consumed; the argument is the *reversed* token
list.  (The `if i > 100: break` escape only fires for longforms of more
than one hundred words and the negative-index wraparound of `tokens[j]`
for exhausted lists are not modelled; neither is reachable in the
claims below, which exercise only the no-match branch.) -/
def consumeFromEnd : List String → ℕ → ℕ
  | [], _ => 0
  | t :: rest, n =>
      if n = 0 then 0
      else 1 + consumeFromEnd rest (if isWordTok t then n - 1 else n)

/-- Modelled from the spec: `adeft.nlp.untokenize` is repository code
not among the sources; the specification requires the tokenizer to be
invertible, and with the whitespace tokenizer model the inverse is a
single-space join. -/
def untokenizeSpec (ts : List String) : String :=
  ⟨joinSpaces (ts.map String.data)⟩

/-- `BaseRecognizer.strip_defining_patterns`
(`src/adeft/recognize.py` lines 81–131), with the subclass hook
`_search` abstracted as the `search` argument: for each candidate
fragment, tokenize it and `_search` its non-punctuation tokens; skip the
fragment when nothing is found; otherwise walk backward over the
fragment's tokens past as many word tokens as the longform has words and
replace the stripped fragment inside the text by the untokenized
remainder.  Finally substitute every parenthesised shortform by the
padded shortform and normalise whitespace. -/
def strip_defining_patterns (search : List String → Option String)
    (sf : String) (text : String) : String :=
  let fragments := get_candidate_fragments text sf 100
  let text1 := fragments.foldl (fun txt frag =>
    let tokens := tokenizeSpec frag
    match search (tokens.filter (fun t => !(inPunctuation t))) with
    | none => txt
    | some lf =>
        let numWords := (splitWs lf).length
        let consumed := consumeFromEnd tokens.reverse numWords
        replaceStr txt (stripWsStr frag)
          (untokenizeSpec (tokens.take (tokens.length - consumed)))) text
  normalizeWs (subParen sf text1)

/-- **C10.** When `_search` finds no longform for any candidate
fragment of the text, `strip_defining_patterns` leaves the fragment loop
inert and returns the input text with every parenthesised shortform
occurrence `\(\s*<shortform>\s*\)` replaced by the bare shortform
(padded, then whitespace-normalised to single spaces); nothing else is
modified. -/
theorem adeft_C10_strip_no_match (search : List String → Option String)
    (sf text : String)
    (h : ∀ frag ∈ get_candidate_fragments text sf 100,
      search ((tokenizeSpec frag).filter (fun t => !(inPunctuation t))) =
        none) :
    strip_defining_patterns search sf text =
      normalizeWs (subParen sf text) := by
  rw [strip_defining_patterns]
  have hfold : ∀ (l : List String) (txt : String),
      (∀ frag ∈ l,
        search ((tokenizeSpec frag).filter (fun t => !(inPunctuation t))) =
          none) →
      l.foldl (fun txt frag =>
        match search ((tokenizeSpec frag).filter
            (fun t => !(inPunctuation t))) with
        | none => txt
        | some lf =>
            replaceStr txt (stripWsStr frag)
              (untokenizeSpec ((tokenizeSpec frag).take
                ((tokenizeSpec frag).length -
                  consumeFromEnd (tokenizeSpec frag).reverse
                    (splitWs lf).length)))) txt = txt := by
    intro l
    induction l with
    | nil => intro txt _; rfl
    | cons frag rest ih =>
        intro txt hl
        rw [List.foldl_cons, hl frag (by simp)]
        exact ih txt (fun f hf => hl f (by simp [hf]))
  exact congrArg (fun t => normalizeWs (subParen sf t))
    (hfold (get_candidate_fragments text sf 100) text h)

/-- Witness for C10 on a concrete text with a constantly failing
`_search`: the defining pattern is replaced by the bare shortform and
whitespace is normalised. -/
theorem adeft_C10_witness :
    strip_defining_patterns (fun _ => none) "NFKB"
        "alpha beta (NFKB) more" =
      normalizeWs (subParen "NFKB" "alpha beta (NFKB) more") ∧
    normalizeWs (subParen "NFKB" "alpha beta (NFKB) more") =
      "alpha beta NFKB more" :=
  ⟨adeft_C10_strip_no_match (fun _ => none) "NFKB" "alpha beta (NFKB) more"
    (fun _ _ => rfl), rfl⟩

end Adeft
